import Mathlib

/-!
# Verification of the panda-parse grammar engine

A shallow embedding of `src/index.js` of the `panda-parse` repository:
the `Lexer` (scanner) with its line/column machinery and the matching
primitives `taste`/`eat`, the grammar-expression algebra (`ShapeExp`),
and the parse drivers (`$AST.parse`, `$AST_LEFT_RECURSIVE.parse`,
`$INDENT_BLOCK.parse`).

Strings are embedded as `List Char`.  JavaScript numbers that can go
negative (cursors, token positions, line indices) are embedded as `Int`.
A JavaScript `RegExp` is embedded as an abstract anchored matcher
(`matchAt`) together with its `sticky`/`global` flags; `exec` reproduces
the flag-dependent search behaviour of `RegExp.prototype.exec` that the
source relies on.  JavaScript `undefined` results (such as out-of-range
array indexing) are embedded as `Option`.
-/

namespace PandaParse

abbrev Str := List Char

/-- JS whitespace characters relevant to `String.prototype.trim` /
`trimStart` / `\s` for the ASCII range used by the library. -/
def isJsWsChar (c : Char) : Bool :=
  c = ' ' || c = '\t' || c = '\n' || c = '\r' || c = '\x0b' || c = '\x0c'

/-- `String.prototype.trimStart`. -/
def jsTrimStart (s : Str) : Str := s.dropWhile isJsWsChar

/-- `String.prototype.trimEnd`. -/
def jsTrimEnd (s : Str) : Str := (s.reverse.dropWhile isJsWsChar).reverse

/-- `String.prototype.trim`. -/
def jsTrim (s : Str) : Str := jsTrimEnd (jsTrimStart s)

/-- `s.slice(a, b)` for `0 ≤ a ≤ b` (the only uses we need). -/
def sliceN (s : Str) (a b : Nat) : Str := (s.drop a).take (b - a)

/-- `s.slice(a, b)` with `Int` endpoints (clamping negatives to `0`,
as `String.prototype.slice` does for the ranges that arise here). -/
def sliceI (s : Str) (a b : Int) : Str := sliceN s a.toNat b.toNat

/-- The character-for-character comparison loop of `Lexer.taste` for a
string pattern: `regex[i] !== str[tasteCursor + i]` for each `i`.
Comparing against a missing character (`undefined`) fails. -/
def strTasteMatch : Str → Str → Bool
  | [], _ => true
  | _ :: _, [] => false
  | a :: as, b :: bs => a = b && strTasteMatch as bs

/-- A JavaScript `RegExp`: an abstract anchored matching engine plus the
`sticky` and `global` flags.  `matchAt s i` is the (engine-level) anchored
match attempt at position `i`, returning the matched text. -/
structure JSRegex where
  matchAt : Str → Nat → Option Str
  sticky : Bool
  global : Bool

/-- Search for the first position `≥ start` at which the matcher
succeeds (how `exec` scans for non-sticky regexes). -/
def execScan (r : JSRegex) (s : Str) : Nat → Nat → Option Str
  | _, 0 => none
  | i, fuel + 1 =>
    match r.matchAt s i with
    | some v => some v
    | none => execScan r s (i + 1) fuel

/-- `regex.exec(str)` after `regex.lastIndex = lastIndex` was set, as the
source does in `Lexer.taste`.  A sticky regex matches only at
`lastIndex`; a global one scans forward from it; otherwise `lastIndex`
is ignored and the scan starts at `0`.  A negative `lastIndex` is
clamped to `0` (JS `ToLength`). -/
def JSRegex.exec (r : JSRegex) (s : Str) (lastIndex : Int) : Option Str :=
  let li : Nat := lastIndex.toNat
  if r.sticky then r.matchAt s li
  else
    let st : Nat := if r.global then li else 0
    execScan r s st (s.length + 1 - st)

/-- A value accepted by the matching primitives: a literal string or a
regex. -/
inductive Pat where
  | str (lit : Str)
  | re (r : JSRegex)

/-- JS truthiness of a pattern argument: `null`/`undefined` and the
empty string are falsy (`if (!regex) return null`); a `RegExp` object is
always truthy. -/
def patTruthy : Option Pat → Bool
  | none => false
  | some (.str lit) => !lit.isEmpty
  | some (.re _) => true

/-! ## Line machinery of the Lexer constructor -/

/-- `str.split("\n")`. -/
def splitNL : Str → List Str
  | [] => [[]]
  | c :: rest =>
    if c = '\n' then [] :: splitNL rest
    else
      match splitNL rest with
      | [] => [[c]]
      | l :: ls => (c :: l) :: ls

/-- The `lineOffsets` loop of the Lexer constructor: for each line the
pair `(start, start + length)`. -/
def lineOffsetsAux : List Str → Nat → List (Nat × Nat)
  | [], _ => []
  | l :: rest, cursor => (cursor, cursor + l.length) :: lineOffsetsAux rest (cursor + l.length + 1)

def linesL (s : Str) : List Str := splitNL s

def lineOffsetsL (s : Str) : List (Nat × Nat) := lineOffsetsAux (linesL s) 0

/-- `this.lines.map((l) => l.length - l.trimStart().length)`. -/
def lineIndentsL (s : Str) : List Nat :=
  (linesL s).map (fun l => l.length - (jsTrimStart l).length)

/-- The `binarySearch` helper from the source, instantiated (as in
`currentLine`) with the comparison against a line's `[start, end]`
interval.  `low`/`high` are JS numbers, so `Int`. -/
def binSearchGo (arr : List (Nat × Nat)) (c : Int) : Int → Int → Nat → Int
  | _, _, 0 => -1
  | low, high, fuel + 1 =>
    if low > high then -1
    else
      let mid := (low + high) / 2
      match arr.get? mid.toNat with
      | none => -1
      | some (st, en) =>
        if c < (st : Int) then binSearchGo arr c low (mid - 1) fuel
        else if c > (en : Int) then binSearchGo arr c (mid + 1) high fuel
        else mid

/-- `Lexer.currentLine` at an arbitrary cursor value: binary search over
`lineOffsets`, `-1` when not found. -/
def jsCurrentLine (s : Str) (c : Int) : Int :=
  let arr := lineOffsetsL s
  binSearchGo arr c 0 ((arr.length : Int) - 1) (arr.length + 1)

/-- `Lexer.lineStart`, including the clamp of an index past the last
line.  Indexing a (non-negative) line that exists yields its start. -/
def lineStartL (s : Str) (line : Nat) : Nat :=
  let ls := linesL s
  let line := if line ≥ ls.length then ls.length - 1 else line
  (((lineOffsetsL s).get? line).map Prod.fst).getD 0

/-- `Lexer.lineEnd`, with the same clamp. -/
def lineEndL (s : Str) (line : Nat) : Nat :=
  let ls := linesL s
  let line := if line ≥ ls.length then ls.length - 1 else line
  (((lineOffsetsL s).get? line).map Prod.snd).getD 0

/-- `Lexer.lineIndent` (plain array indexing, `undefined` out of
range). -/
def lineIndentL (s : Str) (line : Nat) : Option Nat :=
  (lineIndentsL s).get? line

/-- `lineIndents[line]` for a JS (possibly negative) line index. -/
def lineIndentI (s : Str) (line : Int) : Option Nat :=
  if line < 0 then none else (lineIndentsL s).get? line.toNat

/-- `Lexer.currentIndent`. -/
def currentIndentI (s : Str) (c : Int) : Option Nat :=
  lineIndentI s (jsCurrentLine s c)

/-- `Lexer.linesInRange`: all line indices whose `[start, end]` interval
meets `[start, end]` inclusively. -/
def linesInRangeL (s : Str) (a b : Nat) : List Nat :=
  (List.range (lineOffsetsL s).length).filter (fun i =>
    match (lineOffsetsL s).get? i with
    | some (st, en) => st ≤ b && a ≤ en
    | none => false)

/-- Largest index `k ≤ p` with `s[k] = '\n'`, else `-1`. -/
def lastNLuntil (s : Str) : Nat → Int
  | 0 => if s.get? 0 = some '\n' then 0 else -1
  | k + 1 => if s.get? (k + 1) = some '\n' then (k + 1 : Nat) else lastNLuntil s k

/-- `str.lastIndexOf("\n", pos)`: the largest index `k ≤ max pos 0`
holding a newline, else `-1` (a negative `pos` is clamped to `0`, so
index `0` is still examined — visible in `Lexer.eat`'s column
computation at cursor `0`). -/
def jsLastIndexOfNL (s : Str) (pos : Int) : Int :=
  lastNLuntil s pos.toNat

/-! ## Tokens and the matching primitives -/

/-- The back-reference a produced value carries to the `ShapeExp` that
produced it (`result.shapeExp = ...`); `e` is the optional
author-provided expectation message read by `$AST.validate`. -/
structure SRef where
  e : Option Str

structure Token where
  value : Str
  start : Int
  tokEnd : Int
  line : Int
  col : Int
  indent : Option Nat
  isMissing : Bool := false
  sref : Option SRef := none

/-- `Token.isWhiteSpace`: `!this.text.trim().length`. -/
def Token.isWhiteSpace (t : Token) : Bool := (jsTrim t.value).isEmpty

/-- `Lexer.taste`.  Returns the matched value and the updated
`tasteCursor` (`cursor + value.length`); the main cursor is untouched.
Note that the `eatLeadingWhitespace` closure in the source is defined
but never invoked, so no whitespace is skipped. -/
def taste (s : Str) (cursor : Int) (p : Option Pat) : Option (Str × Int) :=
  if !patTruthy p then none
  else
    match p with
    | some (.str lit) =>
      if 0 ≤ cursor && strTasteMatch lit (s.drop cursor.toNat) then
        some (lit, cursor + lit.length)
      else none
    | some (.re r) =>
      match r.exec s cursor with
      | some v => some (v, cursor + v.length)
      | none => none
    | none => none

/-- `Lexer.eat`: taste, then rewind the cursor to the start of the match
(`tasteCursor − value.length`), build the `Token` with its `line`, `col`
and `indent`, and advance the cursor past the value. -/
def eat (s : Str) (cursor : Int) (p : Option Pat) : Option (Token × Int) :=
  match taste s cursor p with
  | none => none
  | some (v, tc) =>
    let c : Int := tc - v.length
    let nl : Int := jsLastIndexOfNL s (c - 1)
    let col : Int := if c - nl - 1 < 0 then 0 else c - nl - 1
    let line : Int := jsCurrentLine s c
    let tok : Token :=
      { value := v, start := c, tokEnd := c + v.length, line := line, col := col,
        indent := lineIndentI s line }
    some (tok, c + v.length)

/-! ## The grammar-expression algebra and node kinds -/

/-- Which static `parse` a node-kind class uses: the base `$AST` driver,
the `$AST_LEFT_RECURSIVE` driver, or the `$INDENT_BLOCK` driver. -/
inductive DriverK where
  | base
  | leftRec
  | indentBlock
deriving DecidableEq

mutual
/-- The `value` of a `ShapeExp`, according to the classification flags
computed in its constructor (`TEXT_EXP`, `AST_EXP`, `OPTION_EXP`,
`SUB_SHAPE_EXP`, `LAZY_EXP`).  For `alt`, the constructor has already
converted the plain array into a `Shape` of `ShapeExp`s. -/
inductive SVal : Type where
  | lit (s : Str)
  | re (r : JSRegex)
  | kref (k : KindD)
  | alt (bs : List ShapeExpD)
  | sub (sh : List ShapeExpD)
  | lazy (f : Unit → SVal)

/-- A `ShapeExp`: value, optional right delimiter, repetition bounds
(`max = none` embeds `Infinity`), and the optional author-provided
expectation message `e` consulted by `$AST.validate`. -/
inductive ShapeExpD : Type where
  | mk (val : SVal) (rightDelimeter : Option Pat) (min : Nat) (max : Option Nat)
      (e : Option Str)

/-- A node kind: the static fields of an `$AST` subclass. -/
inductive KindD : Type where
  | mk (name : String) (shape : List ShapeExpD) (fallbackToFirstExp : Bool)
      (allowIncompleteParse : Bool) (incompleteParseThreshold : Nat) (driver : DriverK)
end

def ShapeExpD.val : ShapeExpD → SVal
  | .mk v _ _ _ _ => v

def ShapeExpD.rightDelimeter : ShapeExpD → Option Pat
  | .mk _ rd _ _ _ => rd

def ShapeExpD.min : ShapeExpD → Nat
  | .mk _ _ m _ _ => m

def ShapeExpD.max : ShapeExpD → Option Nat
  | .mk _ _ _ m _ => m

def ShapeExpD.e : ShapeExpD → Option Str
  | .mk _ _ _ _ msg => msg

def KindD.name : KindD → String
  | .mk n _ _ _ _ _ => n

def KindD.shape : KindD → List ShapeExpD
  | .mk _ sh _ _ _ _ => sh

def KindD.fallbackToFirstExp : KindD → Bool
  | .mk _ _ fb _ _ _ => fb

def KindD.allowIncompleteParse : KindD → Bool
  | .mk _ _ _ ai _ _ => ai

def KindD.incompleteParseThreshold : KindD → Nat
  | .mk _ _ _ _ th _ => th

def KindD.driver : KindD → DriverK
  | .mk _ _ _ _ _ d => d

/-- The `TEXT_EXP` classification flag. -/
def isTextExpD (g : ShapeExpD) : Bool :=
  match g.val with
  | .lit _ => true
  | .re _ => true
  | _ => false

/-- The value of a `TEXT_EXP` as a pattern argument for `taste`/`eat`
(`none` for non-text expressions, whose `value` is not lexable). -/
def textPat (g : ShapeExpD) : Option Pat :=
  match g.val with
  | .lit v => some (.str v)
  | .re r => some (.re r)
  | _ => none

/-- `ShapeExp.formatRegex`: ensure the sticky flag (the `^`-stripping
of the source acts on the abstract engine and is reflected in
`matchAt`). -/
def formatRegex (r : JSRegex) : JSRegex := { r with sticky := true }

def formatPat : Option Pat → Option Pat
  | some (.re r) => some (.re (formatRegex r))
  | p => p

/-- One `Object.assign(this, new ShapeExp({...this, value: this.value()}))`
step for a `LAZY_EXP`: the thunk result replaces the value (formatted if
a regex) and the modifiers are re-normalized; `min`/`max`/`e` survive. -/
def resolveOnce (g : ShapeExpD) : ShapeExpD :=
  match g.val with
  | .lazy f =>
    let v := match f () with
      | .re r => SVal.re (formatRegex r)
      | v => v
    .mk v (formatPat g.rightDelimeter) g.min g.max g.e
  | _ => g

/-- The anonymous `class $SUB_SHAPE_AST extends $AST` built for a
sub-shape expression: all policy fields keep the `$AST` base-class
defaults. -/
def subShapeKind (sh : List ShapeExpD) : KindD :=
  .mk "$SUB_SHAPE_AST" sh true false 1 .base

/-- The synthetic `$RIGHT` class of the left-recursive driver: base
driver over `SHAPE.slice(1)`, inheriting `allowIncompleteParse` from the
invoking kind and the base-class defaults otherwise. -/
def rightKind (k : KindD) : KindD :=
  .mk "$RIGHT" k.shape.tail true k.allowIncompleteParse 1 .base

/-- `WHITESPACE_REGEX = /(?:[ ]+\n?|\n)/y`: a run of spaces optionally
followed by one newline, or a single newline. -/
def wsMatchAt (s : Str) (i : Nat) : Option Str :=
  match s.get? i with
  | some ' ' =>
    let run := (s.drop i).takeWhile (· = ' ')
    (match s.get? (i + run.length) with
     | some '\n' => some (run ++ ['\n'])
     | _ => some run)
  | some '\n' => some ['\n']
  | _ => none

def WHITESPACE_REGEX : JSRegex := ⟨wsMatchAt, true, false⟩

def wsPat : Option Pat := some (.re WHITESPACE_REGEX)

/-- `new RegExp()`, i.e. `/(?:)/` with no flags: matches the empty
string at every position; without `y`/`g` the scan starts at `0`. -/
def emptyRegex : JSRegex := ⟨fun _ _ => some [], false, false⟩

/-- `/\S/y`: exactly one non-whitespace character, sticky. -/
def nonWsRegex : JSRegex :=
  ⟨fun s i =>
    match s.get? i with
    | some ch => if isJsWsChar ch then none else some [ch]
    | none => none,
   true, false⟩

/-! ## Parse-tree nodes -/

/-- A child expression of a node: a `Token` or an `$AST` node (the node
case carries the class name and its `exps`). -/
inductive Exp : Type where
  | tok (t : Token)
  | node (name : String) (exps : List Exp)

mutual
/-- The `_tokens` flattening of the `$AST` constructor (pre-order). -/
def Exp.tokens : Exp → List Token
  | .tok t => [t]
  | .node _ es => expsTokens es

def expsTokens : List Exp → List Token
  | [] => []
  | e :: es => e.tokens ++ expsTokens es
end

/-- `$AST.text`: concatenation of all token values. -/
def Exp.text (e : Exp) : Str := (e.tokens.map Token.value).flatten

/-- `$AST.contentExps`: children that are nodes or non-whitespace
tokens. -/
def contentExpsL (es : List Exp) : List Exp :=
  es.filter (fun e =>
    match e with
    | .node _ _ => true
    | .tok t => !t.isWhiteSpace)

/-- `$AST.contentTokens`. -/
def Exp.contentTokens (e : Exp) : List Token :=
  e.tokens.filter (fun t => !t.isWhiteSpace)

/-- The driver's accumulated-content test for `allowIncompleteParse`:
`exps.filter((e) => e.AST || e.value.trim().length).length`. -/
def contentCount (es : List Exp) : Nat :=
  (es.filter (fun e =>
    match e with
    | .node _ _ => true
    | .tok t => !(jsTrim t.value).isEmpty)).length

structure ASTError where
  line : Int
  col : Int
  message : Str

/-- JS truthiness of `t.shapeExp.e`. -/
def missingMsg (t : Token) : Option Str :=
  match t.sref with
  | some r => (match r.e with
    | some m => if m.isEmpty then none else some m
    | none => none)
  | none => none

/-- `$AST.validate`: one `ASTError` per missing token whose shape
expression carries a truthy message. -/
def validateE (e : Exp) : List ASTError :=
  e.tokens.filterMap (fun t =>
    if t.isMissing then
      match missingMsg t with
      | some m => some ⟨t.line, t.col, m⟩
      | none => none
    else none)

/-- `result.shapeExp = {...}`: attach the back-reference to a single
produced value.  Only tokens record it in the embedding (nothing reads
it from a node); spliced arrays lose it, as in the source, where the
property is set on the array object. -/
def setSref (e : Exp) (g : ShapeExpD) : Exp :=
  match e with
  | .tok t => .tok { t with sref := some ⟨g.e⟩ }
  | .node n es => .node n es

/-! ## The parse procedures

All parse procedures are fueled: the outer `Option` is `none` when the
fuel runs out or the JS code would crash (spreading `undefined`), and
`some (r, c)` gives the JS return value `r` (`none` embedding
`null`/`undefined`) with the final cursor `c`. -/

/-- JS `x <= y` where a side may be `undefined` (comparison with
`undefined` is `false`). -/
def optLe (a b : Option Nat) : Bool :=
  match a, b with
  | some x, some y => x ≤ y
  | _, _ => false

/-- JS `x > y` where a side may be `undefined`. -/
def optGt (a b : Option Nat) : Bool :=
  match a, b with
  | some x, some y => y < x
  | _, _ => false

/-- `Lexer.hasMoreToLex`. -/
def hasMoreToLex (s : Str) (c : Int) : Bool := c < (s.length : Int)

/-- The backward walk of `$INDENT_BLOCK.parse`:
`do _.cursor--; while (_.str[_.cursor] && !_.str[_.cursor].trim());`
starting from the already-decremented index `j = cursor - 1`.  Stops on
a missing character (index `-1` or past the end) or a non-whitespace
character. -/
def walkBack (s : Str) (j : Int) : Int :=
  if j < 0 then j
  else
    match s.get? j.toNat with
    | none => j
    | some ch => if isJsWsChar ch then walkBack s (j - 1) else j
termination_by (j + 1).toNat
decreasing_by simp_wf; omega

mutual

/-- The `while (_.taste(WHITESPACE_REGEX)) results.push(_.eat(WHITESPACE_REGEX))`
loop at the head of each `ShapeExp.parse` iteration (`eat` fails exactly
when `taste` does, so the loop is driven by `eat` directly). -/
def wsEatLoop (n : Nat) (s : Str) (results : List Exp) (c : Int) :
    Option (List Exp × Int) :=
  match n with
  | 0 => none
  | n + 1 =>
    match eat s c wsPat with
    | none => some (results, c)
    | some (t, c') => wsEatLoop n s (results ++ [Exp.tok t]) c'

/-- `ShapeExp.parse`.  The returned `ShapeExpD` is the expression after
the in-place lazy resolution the source performs with `Object.assign`
(callers observe the mutated flags). -/
def shapeExpParse (n : Nat) (s : Str) (g : ShapeExpD) (c : Int) :
    Option (Option (List Exp) × Int × ShapeExpD) :=
  match n with
  | 0 => none
  | n + 1 => shapeExpLoop n s g c 0 [] c

/-- The `for (let expIndex = 0; ...)` loop of `ShapeExp.parse`. -/
def shapeExpLoop (n : Nat) (s : Str) (g : ShapeExpD) (startCursor : Int)
    (expIndex : Nat) (results : List Exp) (c : Int) :
    Option (Option (List Exp) × Int × ShapeExpD) :=
  match n with
  | 0 => none
  | n + 1 =>
    let maxOk := match g.max with
      | none => true
      | some m => decide (expIndex < m)
    let rdOk := (taste s c g.rightDelimeter).isNone || expIndex == 0
    if maxOk && rdOk then
      match wsEatLoop n s results c with
      | none => none
      | some (results1, c1) =>
        let g1 := resolveOnce g
        match subAttempt n s g1 c1 with
        | none => none
        | some (some rs, c2) =>
          shapeExpLoop n s g1 startCursor (expIndex + 1) (results1 ++ rs) c2
        | some (none, c2) =>
          if g1.min ≤ expIndex then some (some results1, c2, g1)
          else some (none, startCursor, g1)
    else some (some results, c, g)

/-- The per-iteration dispatch of `ShapeExp.parse` on the (resolved)
expression's classification: literal/pattern via `eat`, node reference
with the lead-text short-circuit, alternation, sub-shape via the
anonymous kind (whose `exps` are spliced; a non-node result has
`undefined` `exps` and falls through as a failure), and a
still-unresolved lazy value which matches no branch. -/
def subAttempt (n : Nat) (s : Str) (g : ShapeExpD) (c : Int) :
    Option (Option (List Exp) × Int) :=
  match n with
  | 0 => none
  | n + 1 =>
    match g.val with
    | .lit v =>
      (match eat s c (some (.str v)) with
       | some (t, c') => some (some [setSref (.tok t) g], c')
       | none => some (none, c))
    | .re r =>
      (match eat s c (some (.re r)) with
       | some (t, c') => some (some [setSref (.tok t) g], c')
       | none => some (none, c))
    | .kref k =>
      let scirc := match k.shape.head? with
        | some fe => isTextExpD fe && (taste s c (textPat fe)).isNone
        | none => false
      if scirc then some (none, c)
      else
        match kindParse n s k c with
        | none => none
        | some (none, c') => some (none, c')
        | some (some ex, c') => some (some [setSref ex g], c')
    | .alt bs => altLoop n s bs c
    | .sub sh =>
      (match kindParse n s (subShapeKind sh) c with
       | none => none
       | some (none, c') => some (none, c')
       | some (some (.node _ es), c') => some (some es, c')
       | some (some (.tok _), c') => some (none, c'))
    | .lazy _ => some (none, c)

/-- The first-success loop over alternation branches (after the
constructor's conversion every branch is a `ShapeExp`, so the
`isLexable` arm of the source is dead). -/
def altLoop (n : Nat) (s : Str) (bs : List ShapeExpD) (c : Int) :
    Option (Option (List Exp) × Int) :=
  match n with
  | 0 => none
  | n + 1 =>
    match bs with
    | [] => some (none, c)
    | b :: rest =>
      match shapeExpParse n s b c with
      | none => none
      | some (some l, c', _) => some (some l, c')
      | some (none, c', _) => altLoop n s rest c'

/-- `this.value.parse(_)` for a node reference: dispatch on the static
`parse` of the referenced class. -/
def kindParse (n : Nat) (s : Str) (k : KindD) (c : Int) :
    Option (Option Exp × Int) :=
  match n with
  | 0 => none
  | n + 1 =>
    match k.driver with
    | .base => baseParse n s k c
    | .leftRec => lrParse n s k c
    | .indentBlock => indentParse n s k c

/-- `$AST.parse` (the base driver). -/
def baseParse (n : Nat) (s : Str) (k : KindD) (c : Int) :
    Option (Option Exp × Int) :=
  match n with
  | 0 => none
  | n + 1 => baseLoop n s k c 0 none c [] c

/-- The shape-position loop of `$AST.parse`, carrying `firstExp`,
`firstExpCursor` and the accumulated `exps`. -/
def baseLoop (n : Nat) (s : Str) (k : KindD) (startCursor : Int) (i : Nat)
    (firstExp : Option Exp) (firstExpCursor : Int) (exps : List Exp) (c : Int) :
    Option (Option Exp × Int) :=
  match n with
  | 0 => none
  | n + 1 =>
    match k.shape.get? i with
    | none => some (some (.node k.name exps), c)
    | some g =>
      match shapeExpParse n s g c with
      | none => none
      | some (some results, c1, g1) =>
        let isFirstAST := !isTextExpD g1 && i == 0
        let fE := if isFirstAST then results.head? else firstExp
        let fEC := if isFirstAST then c1 else firstExpCursor
        baseLoop n s k startCursor (i + 1) fE fEC (exps ++ results) c1
      | some (none, c1, g1) =>
        if k.allowIncompleteParse && decide (k.incompleteParseThreshold ≤ contentCount exps) then
          match eat s c1 (some (.re emptyRegex)) with
          | none => none
          | some (t, c2) =>
            let t1 : Token := { t with isMissing := true, sref := some ⟨g1.e⟩ }
            baseLoop n s k startCursor (i + 1) firstExp firstExpCursor
              (exps ++ [.tok t1]) c2
        else if k.fallbackToFirstExp then some (firstExp, firstExpCursor)
        else some (none, startCursor)

/-- `$AST_LEFT_RECURSIVE.parse` up to the first-expression parse; an
empty result list leaves `$left = results[0] = undefined`. -/
def lrParse (n : Nat) (s : Str) (k : KindD) (c : Int) :
    Option (Option Exp × Int) :=
  match n with
  | 0 => none
  | n + 1 =>
    match k.shape.head? with
    | none => none
    | some g0 =>
      match shapeExpParse n s g0 c with
      | none => none
      | some (none, c1, _) => some (none, c1)
      | some (some results, c1, _) => lrLoop n s k results.head? c1 c1

/-- The `while (_.taste(this.SHAPE[0].rightDelimeter))` loop of the
left-recursive driver.  `leftCursor` is captured after the first
expression's parse and never updated by a fold.  Folding with an
`undefined` `$left`, or a `$right` without `exps`, crashes in JS
(embedded as the outer `none`). -/
def lrLoop (n : Nat) (s : Str) (k : KindD) (left : Option Exp)
    (leftCursor c : Int) : Option (Option Exp × Int) :=
  match n with
  | 0 => none
  | n + 1 =>
    match k.shape.head? with
    | none => none
    | some g0 =>
      if (taste s c g0.rightDelimeter).isSome then
        match baseParse n s (rightKind k) c with
        | none => none
        | some (none, _) => some (left, leftCursor)
        | some (some (.node _ rexps), c') =>
          (match left with
           | some l => lrLoop n s k (some (.node k.name (l :: rexps))) leftCursor c'
           | none => none)
        | some (some (.tok _), _) => none
      else some (left, c)

/-- `$INDENT_BLOCK.parse`: identify the controlling previous token by
walking backwards and eating one `/\S/y` character (the cursor is
restored by the `popCursor`), then inline mode on the same line, the
indent gate, or the block loop. -/
def indentParse (n : Nat) (s : Str) (k : KindD) (c : Int) :
    Option (Option Exp × Int) :=
  match n with
  | 0 => none
  | n + 1 =>
    let w := walkBack s (c - 1)
    match (eat s w (some (.re nonWsRegex))).map Prod.fst with
    | some pt =>
      if pt.line == jsCurrentLine s c then
        match baseParse n s k c with
        | none => none
        | some (some ex, c') => some (some (.node k.name [ex]), c')
        | some (none, c') => some (none, c')
      else if optLe (currentIndentI s c) pt.indent then some (none, c)
      else indentLoop n s k pt.indent [] c
    | none => indentLoop n s k (currentIndentI s c) [] c

/-- The `while (_.hasMoreToLex && isIndented())` loop of the block mode;
`isIndented` skips whitespace and eats one `/\S/y` character on a
scratch cursor. -/
def indentLoop (n : Nat) (s : Str) (k : KindD) (baseIndent : Option Nat)
    (exps : List Exp) (c : Int) : Option (Option Exp × Int) :=
  match n with
  | 0 => none
  | n + 1 =>
    let cont : Option Bool :=
      if hasMoreToLex s c then
        match wsEatLoop n s [] c with
        | none => none
        | some (_, c1) =>
          some (match eat s c1 (some (.re nonWsRegex)) with
            | some (t, _) => optGt t.indent baseIndent
            | none => false)
      else some false
    match cont with
    | none => none
    | some false =>
      if exps.isEmpty then some (none, c) else some (some (.node k.name exps), c)
    | some true =>
      match baseParse n s k c with
      | none => none
      | some (some (.node _ nexps), c') => indentLoop n s k baseIndent (exps ++ nexps) c'
      | some (some (.tok _), _) => none
      | some (none, c') =>
        if exps.isEmpty then some (none, c') else some (some (.node k.name exps), c')

end

/-! ## Concrete grammars used as test inputs

These mirror grammars reachable from the public authoring interface
(`new Shape(...)` with node-kind classes), written directly as
`ShapeExpD`/`KindD` values. -/

/-- Shorthand for a string literal as `List Char`. -/
def S (s : String) : Str := s.data

/-- `/\d+/y` (the formatted form of the author's `/^\d+/`). -/
def digitsRe : JSRegex :=
  ⟨fun s i =>
    let run := (s.drop i).takeWhile (fun c => c.isDigit)
    if run.isEmpty then none else some run,
   true, false⟩

/-- An anchored matcher for the text `ab`, packaged as a non-sticky,
non-global regex (JS `/ab/`), as accepted by the public `Lexer.eat`. -/
def abPlainRe : JSRegex :=
  ⟨fun s i => if strTasteMatch (S "ab") (s.drop i) then some (S "ab") else none,
   false, false⟩

/-- `class $NUMBER extends $AST { static SHAPE = new Shape(/^\d+/) }`. -/
def numKind : KindD :=
  .mk "$NUMBER" [.mk (.re digitsRe) none 1 (some 1) none] true false 1 .base

/-- `class $ADD extends $AST { static SHAPE = new Shape($NUMBER, "+", $NUMBER) }`
(the `Shape` constructor records `"+"` as the first item's right
delimiter while keeping it as its own expression). -/
def addKind : KindD :=
  .mk "$ADD" [.mk (.kref numKind) (some (.str ['+'])) 1 (some 1) none,
              .mk (.lit ['+']) none 1 (some 1) none,
              .mk (.kref numKind) none 1 (some 1) none] true false 1 .base

/-- The same shape with `allowIncompleteParse = true`,
`incompleteParseThreshold = 2`, and an author message on the trailing
`$NUMBER` position. -/
def addIncompleteKind : KindD :=
  .mk "$ADD" [.mk (.kref numKind) (some (.str ['+'])) 1 (some 1) none,
              .mk (.lit ['+']) none 1 (some 1) none,
              .mk (.kref numKind) none 1 (some 1) (some (S "expected number"))]
    true true 2 .base

/-- A left-recursive sum: `class $SUM extends $AST_LEFT_RECURSIVE` with
`SHAPE = new Shape($NUMBER, "+", $NUMBER)`. -/
def sumKind : KindD :=
  .mk "$SUM" [.mk (.kref numKind) (some (.str ['+'])) 1 (some 1) none,
              .mk (.lit ['+']) none 1 (some 1) none,
              .mk (.kref numKind) none 1 (some 1) none] true false 1 .leftRec

/-- A literal `"a"` expression with `{min: 0}`. -/
def litAmin0 : ShapeExpD := .mk (.lit ['a']) none 0 (some 1) none

/-- An alternation (`min = 1`) whose only branch is the `{min: 0}`
literal above. -/
def altMin0 : ShapeExpD := .mk (.alt [litAmin0]) none 1 (some 1) none

/-- Branch `"+"` of an alternation list `["+", "-"]` (the `Shape`
conversion of the list records `"-"` as its right delimiter). -/
def plusExp : ShapeExpD := .mk (.lit ['+']) (some (.str ['-'])) 1 (some 1) none

def minusExp : ShapeExpD := .mk (.lit ['-']) none 1 (some 1) none

/-- The alternation `["+", "-"]`. -/
def altPM : ShapeExpD := .mk (.alt [plusExp, minusExp]) none 1 (some 1) none

def qExp : ShapeExpD := .mk (.lit ['q']) none 1 (some 1) none

/-- A sub-shape `new Shape(["+", "-"], "q")` used as one expression. -/
def subPMq : ShapeExpD := .mk (.sub [altPM, qExp]) none 1 (some 1) none

/-- The same sub-shape with `{min: 0}` and right delimiter `"z"`, as in
`new Shape(new Shape(["+", "-"], "q"), {min: 0}, "z")`. -/
def ssMin0 : ShapeExpD := .mk (.sub [altPM, qExp]) (some (.str ['z'])) 0 (some 1) none

/-- `class $K extends $AST` over that shape. -/
def kBad : KindD :=
  .mk "$K" [ssMin0, .mk (.lit ['z']) none 1 (some 1) none] true false 1 .base

/-- A sub-shape `new Shape($NUMBER, "q")` whose first element produces a
node. -/
def subNq : ShapeExpD :=
  .mk (.sub [.mk (.kref numKind) none 1 (some 1) none, qExp]) none 1 (some 1) none

/-- End offset of the last token of a parse result (`0` when there is
none): the input position up to which the returned tree extends. -/
def lastTokEnd (e : Exp) : Int :=
  ((e.tokens.getLast?).map Token.tokEnd).getD 0

/-- The `$NUMBER` node produced at cursor `0` of `"1x"`. -/
def numNode1 : Exp :=
  .node "$NUMBER"
    [.tok
      { value := ['1'], start := 0, tokEnd := 1, line := 0,
        col := 0, indent := some 0, isMissing := false, sref := some ⟨none⟩ }]

/-- The `"+"` token eaten at cursor `1`. -/
def plusTok1 : Token :=
  { value := ['+'], start := 1, tokEnd := 2, line := 0,
    col := 1, indent := some 0, isMissing := false, sref := some ⟨none⟩ }

/-- The `$NUMBER` node produced at cursor `2`. -/
def numNode2 : Exp :=
  .node "$NUMBER"
    [.tok
      { value := ['2'], start := 2, tokEnd := 3, line := 0,
        col := 2, indent := some 0, isMissing := false, sref := some ⟨none⟩ }]

/-- The synthetic missing token appended at cursor `2` of `"1+"` by the
incomplete-parse branch, with the author message of the failed
position. -/
def missTok2 : Token :=
  { value := [], start := 2, tokEnd := 2, line := 0, col := 2,
    indent := some 0, isMissing := true, sref := some ⟨some (S "expected number")⟩ }

/-- The partial `$ADD` node returned for `"1+"` under
`allowIncompleteParse`. -/
def incompleteNode : Exp := .node "$ADD" [numNode1, .tok plusTok1, .tok missTok2]

/-- The `$SUM` node folded from `"1+2"` by the left-recursive driver. -/
def sumNode12 : Exp := .node "$SUM" [numNode1, .tok plusTok1, numNode2]

/-- The `"+"` token eaten at cursor `0`. -/
def plusTok0 : Token :=
  { value := ['+'], start := 0, tokEnd := 1, line := 0,
    col := 0, indent := some 0, isMissing := false, sref := some ⟨none⟩ }

/-- Classification used by the amended C7: a literal, pattern, or
node-reference expression. -/
def isTextOrKref (g : ShapeExpD) : Bool :=
  match g.val with
  | .lit _ => true
  | .re _ => true
  | .kref _ => true
  | _ => false

/-! ## Specification-side definitions

Used only to state and prove properties; not part of the embedding. -/

/-- Rejoin split lines with newlines (inverse of `splitNL`). -/
def joinNL : List Str → Str
  | [] => []
  | [l] => l
  | l :: l2 :: ls => l ++ '\n' :: joinNL (l2 :: ls)

/-- A well-behaved regex engine over `s`: a match reported at `i` is the
actual text of `s` at `[i, i + length)` (in particular it lies inside
`s`).  Every real `RegExp` engine satisfies this; the embedding's
`matchAt` is abstract, so the property is an explicit hypothesis where
needed. -/
def ValidRe (r : JSRegex) (s : Str) : Prop :=
  ∀ i v, r.matchAt s i = some v →
    i + v.length ≤ s.length ∧ sliceN s i (i + v.length) = v

/-! ## Lemmas: matching primitives -/

theorem strTasteMatch_iff {lit b : Str} :
    strTasteMatch lit b = true ↔ b.take lit.length = lit := by
  induction lit generalizing b with
  | nil => simp [strTasteMatch]
  | cons a as ih =>
    cases b with
    | nil => simp [strTasteMatch]
    | cons x xs =>
      simp only [strTasteMatch, Bool.and_eq_true, decide_eq_true_eq,
        List.length_cons, List.take_succ_cons, List.cons.injEq, ih]
      constructor
      · rintro ⟨h1, h2⟩; exact ⟨h1.symm, h2⟩
      · rintro ⟨h1, h2⟩; exact ⟨h1.symm, h2⟩

theorem taste_advance {s : Str} {c : Int} {p : Option Pat} {v : Str} {tc : Int}
    (h : taste s c p = some (v, tc)) : tc = c + v.length := by
  unfold taste at h
  split at h
  · simp at h
  · match p with
    | none => simp at h
    | some (.str lit) =>
      simp only at h
      split at h
      · simp only [Option.some.injEq, Prod.mk.injEq] at h
        obtain ⟨h1, h2⟩ := h
        subst h1; omega
      · simp at h
    | some (.re r) =>
      simp only at h
      cases he : r.exec s c with
      | none => rw [he] at h; simp at h
      | some v1 =>
        rw [he] at h
        simp only [Option.some.injEq, Prod.mk.injEq] at h
        obtain ⟨h1, h2⟩ := h
        subst h1; omega

theorem eat_elim {s : Str} {c : Int} {p : Option Pat} {t : Token} {c2 : Int}
    (h : eat s c p = some (t, c2)) :
    ∃ v, taste s c p = some (v, c + v.length) ∧
      c2 = c + v.length ∧
      t = { value := v, start := c, tokEnd := c + v.length,
            line := jsCurrentLine s c,
            col := (if c - jsLastIndexOfNL s (c - 1) - 1 < 0 then 0
                    else c - jsLastIndexOfNL s (c - 1) - 1),
            indent := lineIndentI s (jsCurrentLine s c) } := by
  unfold eat at h
  cases ht : taste s c p with
  | none => rw [ht] at h; exact absurd h (by simp)
  | some vtc =>
    obtain ⟨v, tc⟩ := vtc
    have hadv := taste_advance ht
    subst hadv
    rw [ht] at h
    simp only at h
    have he : c + (v.length : Int) - v.length = c := by omega
    rw [he] at h
    simp only [Option.some.injEq, Prod.mk.injEq] at h
    obtain ⟨h1, h2⟩ := h
    exact ⟨v, rfl, h2.symm, h1.symm⟩

theorem eat_advance {s : Str} {c : Int} {p : Option Pat} {t : Token} {c2 : Int}
    (h : eat s c p = some (t, c2)) :
    c2 = c + (t.value.length : Int) ∧ t.start = c ∧ t.tokEnd = c2 ∧ c ≤ c2 := by
  obtain ⟨v, _, hc2, ht⟩ := eat_elim h
  subst ht
  refine ⟨by simpa using hc2, rfl, by simpa using hc2.symm, by omega⟩

/-- `eat(new RegExp())` always succeeds with an empty value at the
current cursor (the empty regex matches at position `0` of the scan but
only the value's length — zero — feeds back into the cursor). -/
theorem eat_emptyRegex (s : Str) (c : Int) :
    eat s c (some (.re emptyRegex)) =
      some ({ value := [], start := c, tokEnd := c,
              line := jsCurrentLine s c,
              col := (if c - jsLastIndexOfNL s (c - 1) - 1 < 0 then 0
                      else c - jsLastIndexOfNL s (c - 1) - 1),
              indent := lineIndentI s (jsCurrentLine s c) }, c) := by
  have hx : emptyRegex.exec s c = some [] := by
    unfold JSRegex.exec emptyRegex
    simp [execScan]
  unfold eat taste patTruthy
  simp only [Bool.not_true, Bool.false_eq_true, if_false, hx]
  simp only [List.length_nil, Int.natCast_zero, Int.add_zero, Int.sub_zero]

/-! ## Cursor monotonicity and restoration

One induction on the fuel establishes, for every parse procedure of the
library, that the exit cursor is at or after the entry cursor, and the
exact-restoration facts that hold on failure (`ShapeExp.parse` and the
alternation loop restore exactly; the drivers do not always — see the
`C2` analysis below). -/

theorem parseMonoAll : ∀ n : Nat,
    (∀ s res c r, wsEatLoop n s res c = some r → c ≤ r.2) ∧
    (∀ s g c r, shapeExpParse n s g c = some r →
      c ≤ r.2.1 ∧ (r.1 = none → r.2.1 = c)) ∧
    (∀ s g sc i res c r, shapeExpLoop n s g sc i res c = some r →
      (∀ l, r.1 = some l → c ≤ r.2.1) ∧ (r.1 = none → r.2.1 = sc)) ∧
    (∀ s g c r, subAttempt n s g c = some r → c ≤ r.2) ∧
    (∀ s bs c r, altLoop n s bs c = some r → c ≤ r.2 ∧ (r.1 = none → r.2 = c)) ∧
    (∀ s k c r, kindParse n s k c = some r → c ≤ r.2) ∧
    (∀ s k c r, baseParse n s k c = some r → c ≤ r.2) ∧
    (∀ s k sc i fE fEC exps c r, baseLoop n s k sc i fE fEC exps c = some r →
      sc ≤ c → sc ≤ fEC → sc ≤ r.2) ∧
    (∀ s k c r, lrParse n s k c = some r → c ≤ r.2) ∧
    (∀ s k left lc c r, lrLoop n s k left lc c = some r → lc ≤ c → lc ≤ r.2) ∧
    (∀ s k c r, indentParse n s k c = some r → c ≤ r.2) ∧
    (∀ s k bi exps c r, indentLoop n s k bi exps c = some r → c ≤ r.2) := by
  intro n
  induction n with
  | zero =>
    refine ⟨?_, ?_, ?_, ?_, ?_, ?_, ?_, ?_, ?_, ?_, ?_, ?_⟩ <;> intros <;>
      simp_all [wsEatLoop, shapeExpParse, shapeExpLoop, subAttempt, altLoop,
        kindParse, baseParse, baseLoop, lrParse, lrLoop, indentParse, indentLoop]
  | succ n ih =>
    obtain ⟨ihws, ihp, ihl, ihsa, ihalt, ihk, ihbp, ihbl, ihlr, ihlrl, ihip, ihil⟩ := ih
    have hws : ∀ s res c r, wsEatLoop (n + 1) s res c = some r → c ≤ r.2 := by
      intro s res c r h
      rw [wsEatLoop] at h
      cases he : eat s c wsPat with
      | none =>
        rw [he] at h
        obtain rfl := Option.some.inj h
        exact le_refl c
      | some tc =>
        obtain ⟨t, c1⟩ := tc
        rw [he] at h
        have h1 := ihws s (res ++ [Exp.tok t]) c1 r h
        have h2 := (eat_advance he).2.2.2
        omega
    have hp : ∀ s g c r, shapeExpParse (n + 1) s g c = some r →
        c ≤ r.2.1 ∧ (r.1 = none → r.2.1 = c) := by
      intro s g c r h
      rw [shapeExpParse] at h
      obtain ⟨h1, h2⟩ := ihl s g c 0 [] c r h
      cases hr : r.1 with
      | none => have := h2 hr; exact ⟨le_of_eq this.symm, fun _ => this⟩
      | some l => exact ⟨h1 l hr, by simp [hr]⟩
    refine ⟨hws, hp, ?_, ?_, ?_, ?_, ?_, ?_, ?_, ?_, ?_, ?_⟩
    · -- shapeExpLoop
      intro s g sc i res c r h
      rw [shapeExpLoop] at h
      split at h
      · cases hw : wsEatLoop n s res c with
        | none => rw [hw] at h; exact absurd h (by simp)
        | some rc =>
          obtain ⟨res1, c1⟩ := rc
          rw [hw] at h
          simp only at h
          have hc1 : c ≤ c1 := ihws s res c ⟨res1, c1⟩ hw
          cases hs : subAttempt n s (resolveOnce g) c1 with
          | none => rw [hs] at h; exact absurd h (by simp)
          | some rc2 =>
            obtain ⟨res?, c2⟩ := rc2
            rw [hs] at h
            have hc2 : c1 ≤ c2 := ihsa s (resolveOnce g) c1 ⟨res?, c2⟩ hs
            cases res? with
            | some rs =>
              simp only at h
              obtain ⟨h1, h2⟩ := ihl s (resolveOnce g) sc (i + 1) (res1 ++ rs) c2 r h
              exact ⟨fun l hl => le_trans (le_trans hc1 hc2) (h1 l hl), h2⟩
            | none =>
              simp only at h
              split at h
              · obtain rfl := Option.some.inj h
                exact ⟨fun l _ => le_trans hc1 hc2, by simp⟩
              · obtain rfl := Option.some.inj h
                exact ⟨fun l hl => by simp at hl, fun _ => rfl⟩
      · obtain rfl := Option.some.inj h
        exact ⟨fun l _ => le_refl c, by simp⟩
    · -- subAttempt
      intro s g c r h
      rw [subAttempt] at h
      match hv : g.val with
      | .lit v =>
        rw [hv] at h
        simp only at h
        cases he : eat s c (some (.str v)) with
        | none =>
          rw [he] at h
          simp only at h
          obtain rfl := Option.some.inj h
          exact le_refl c
        | some tc =>
          obtain ⟨t, c1⟩ := tc
          rw [he] at h
          simp only at h
          obtain rfl := Option.some.inj h
          exact (eat_advance he).2.2.2
      | .re rr =>
        rw [hv] at h
        simp only at h
        cases he : eat s c (some (.re rr)) with
        | none =>
          rw [he] at h
          simp only at h
          obtain rfl := Option.some.inj h
          exact le_refl c
        | some tc =>
          obtain ⟨t, c1⟩ := tc
          rw [he] at h
          simp only at h
          obtain rfl := Option.some.inj h
          exact (eat_advance he).2.2.2
      | .kref k =>
        rw [hv] at h
        simp only at h
        split at h
        · obtain rfl := Option.some.inj h
          exact le_refl c
        · cases hk : kindParse n s k c with
          | none => rw [hk] at h; exact absurd h (by simp)
          | some rc =>
            obtain ⟨ex?, c1⟩ := rc
            rw [hk] at h
            have hc1 : c ≤ c1 := ihk s k c ⟨ex?, c1⟩ hk
            cases ex? with
            | none =>
              simp only at h
              obtain rfl := Option.some.inj h
              exact hc1
            | some ex =>
              simp only at h
              obtain rfl := Option.some.inj h
              exact hc1
      | .alt bs =>
        rw [hv] at h
        exact (ihalt s bs c r h).1
      | .sub sh =>
        rw [hv] at h
        simp only at h
        cases hk : kindParse n s (subShapeKind sh) c with
        | none => rw [hk] at h; exact absurd h (by simp)
        | some rc =>
          obtain ⟨ex?, c1⟩ := rc
          rw [hk] at h
          have hc1 : c ≤ c1 := ihk s (subShapeKind sh) c ⟨ex?, c1⟩ hk
          match ex? with
          | none =>
            simp only at h
            obtain rfl := Option.some.inj h
            exact hc1
          | some (.node nm es) =>
            simp only at h
            obtain rfl := Option.some.inj h
            exact hc1
          | some (.tok t) =>
            simp only at h
            obtain rfl := Option.some.inj h
            exact hc1
      | .lazy f =>
        rw [hv] at h
        simp only at h
        obtain rfl := Option.some.inj h
        exact le_refl c
    · -- altLoop
      intro s bs c r h
      match bs with
      | [] =>
        rw [altLoop] at h
        obtain rfl := Option.some.inj h
        exact ⟨le_refl c, fun _ => rfl⟩
      | b :: rest =>
        rw [altLoop] at h
        cases hb : shapeExpParse n s b c with
        | none => rw [hb] at h; exact absurd h (by simp)
        | some rc =>
          obtain ⟨res?, c1, g1⟩ := rc
          rw [hb] at h
          obtain ⟨hble, hbeq⟩ := ihp s b c ⟨res?, c1, g1⟩ hb
          cases res? with
          | some l =>
            simp only at h
            obtain rfl := Option.some.inj h
            exact ⟨hble, by simp⟩
          | none =>
            simp only at h
            have hc1 : c1 = c := hbeq rfl
            subst hc1
            exact ihalt s rest c1 r h
    · -- kindParse
      intro s k c r h
      rw [kindParse] at h
      match hd : k.driver with
      | .base => rw [hd] at h; exact ihbp s k c r h
      | .leftRec => rw [hd] at h; exact ihlr s k c r h
      | .indentBlock => rw [hd] at h; exact ihip s k c r h
    · -- baseParse
      intro s k c r h
      rw [baseParse] at h
      exact ihbl s k c 0 none c [] c r h (le_refl c) (le_refl c)
    · -- baseLoop
      intro s k sc i fE fEC exps c r h hsc hfec
      rw [baseLoop] at h
      match hg : k.shape.get? i with
      | none =>
        rw [hg] at h
        obtain rfl := Option.some.inj h
        exact hsc
      | some g =>
        rw [hg] at h
        simp only at h
        cases hpp : shapeExpParse n s g c with
        | none => rw [hpp] at h; exact absurd h (by simp)
        | some rc =>
          obtain ⟨res?, c1, g1⟩ := rc
          rw [hpp] at h
          obtain ⟨hple, hpeq⟩ := ihp s g c ⟨res?, c1, g1⟩ hpp
          cases res? with
          | some results =>
            simp only at h
            refine ihbl s k sc (i + 1) _ _ (exps ++ results) c1 r h (le_trans hsc hple) ?_
            split
            · exact le_trans hsc hple
            · exact hfec
          | none =>
            simp only at h
            have hc1 : c1 = c := hpeq rfl
            subst hc1
            split at h
            · cases he : eat s c1 (some (.re emptyRegex)) with
              | none => rw [he] at h; exact absurd h (by simp)
              | some tc =>
                obtain ⟨t, c2⟩ := tc
                rw [he] at h
                simp only at h
                have hc2 : c1 ≤ c2 := (eat_advance he).2.2.2
                exact ihbl s k sc (i + 1) fE fEC _ c2 r h (le_trans hsc hc2) hfec
            · split at h
              · obtain rfl := Option.some.inj h
                exact hfec
              · obtain rfl := Option.some.inj h
                exact le_refl sc
    · -- lrParse
      intro s k c r h
      rw [lrParse] at h
      match hg : k.shape.head? with
      | none => rw [hg] at h; exact absurd h (by simp)
      | some g0 =>
        rw [hg] at h
        simp only at h
        cases hpp : shapeExpParse n s g0 c with
        | none => rw [hpp] at h; exact absurd h (by simp)
        | some rc =>
          obtain ⟨res?, c1, g1⟩ := rc
          rw [hpp] at h
          obtain ⟨hple, hpeq⟩ := ihp s g0 c ⟨res?, c1, g1⟩ hpp
          cases res? with
          | none =>
            simp only at h
            obtain rfl := Option.some.inj h
            exact hple
          | some results =>
            simp only at h
            exact le_trans hple (ihlrl s k results.head? c1 c1 r h (le_refl c1))
    · -- lrLoop
      intro s k left lc c r h hlc
      rw [lrLoop] at h
      match hg : k.shape.head? with
      | none => rw [hg] at h; exact absurd h (by simp)
      | some g0 =>
        rw [hg] at h
        simp only at h
        split at h
        · cases hb : baseParse n s (rightKind k) c with
          | none => rw [hb] at h; exact absurd h (by simp)
          | some rc =>
            obtain ⟨ex?, c1⟩ := rc
            rw [hb] at h
            have hc1 : c ≤ c1 := ihbp s (rightKind k) c ⟨ex?, c1⟩ hb
            match ex? with
            | none =>
              simp only at h
              obtain rfl := Option.some.inj h
              exact le_refl lc
            | some (.node nm rexps) =>
              simp only at h
              match left with
              | some l =>
                simp only at h
                exact ihlrl s k _ lc c1 r h (le_trans hlc hc1)
              | none => simp only at h; exact absurd h (by simp)
            | some (.tok t) =>
              simp only at h
              exact absurd h (by simp)
        · obtain rfl := Option.some.inj h
          exact hlc
    · -- indentParse
      intro s k c r h
      rw [indentParse] at h
      match hpt : (eat s (walkBack s (c - 1)) (some (.re nonWsRegex))).map Prod.fst with
      | some pt =>
        rw [hpt] at h
        simp only at h
        split at h
        · cases hb : baseParse n s k c with
          | none => rw [hb] at h; exact absurd h (by simp)
          | some rc =>
            obtain ⟨ex?, c1⟩ := rc
            rw [hb] at h
            have hc1 : c ≤ c1 := ihbp s k c ⟨ex?, c1⟩ hb
            match ex? with
            | some ex =>
              simp only at h
              obtain rfl := Option.some.inj h
              exact hc1
            | none =>
              simp only at h
              obtain rfl := Option.some.inj h
              exact hc1
        · split at h
          · obtain rfl := Option.some.inj h
            exact le_refl c
          · exact ihil s k pt.indent [] c r h
      | none =>
        rw [hpt] at h
        exact ihil s k (currentIndentI s c) [] c r h
    · -- indentLoop
      intro s k bi exps c r h
      rw [indentLoop] at h
      split at h
      · exact absurd h (by simp)
      · split at h <;>
        · obtain rfl := Option.some.inj h
          exact le_refl c
      · cases hb : baseParse n s k c with
        | none => rw [hb] at h; exact absurd h (by simp)
        | some rc2 =>
          obtain ⟨ex?, c3⟩ := rc2
          rw [hb] at h
          have hc3 : c ≤ c3 := ihbp s k c ⟨ex?, c3⟩ hb
          match ex? with
          | some (.node nm nexps) =>
            simp only at h
            exact le_trans hc3 (ihil s k bi (exps ++ nexps) c3 r h)
          | some (.tok t2) =>
            simp only at h
            exact absurd h (by simp)
          | none =>
            simp only at h
            split at h <;>
            · obtain rfl := Option.some.inj h
              exact hc3

/-- Where a failing run of the base driver's loop can leave the cursor:
the hard restore to `startCursor`, the fallback branch returning an
absent `firstExp` together with `firstExpCursor`, or — only from
position `0` — the fallback branch after the first shape position
produced an empty result list (which sets `firstExp = results[0] =
undefined` but still updates `firstExpCursor`). -/
theorem baseLoop_fail : ∀ n s k sc i fE fEC exps c r2,
    baseLoop n s k sc i fE fEC exps c = some (none, r2) →
    r2 = sc ∨ (r2 = fEC ∧ fE = none ∧ k.fallbackToFirstExp = true) ∨
      (i = 0 ∧ k.fallbackToFirstExp = true ∧
        ∃ m g results c1 g1, k.shape.get? 0 = some g ∧
          shapeExpParse m s g c = some (some results, c1, g1) ∧
          isTextExpD g1 = false ∧ results.head? = none ∧ r2 = c1) := by
  intro n
  induction n with
  | zero =>
    intro s k sc i fE fEC exps c r2 h
    simp [baseLoop] at h
  | succ n ih =>
    intro s k sc i fE fEC exps c r2 h
    rw [baseLoop] at h
    match hg : k.shape.get? i with
    | none =>
      rw [hg] at h
      simp at h
    | some g =>
      rw [hg] at h
      simp only at h
      cases hpp : shapeExpParse n s g c with
      | none => rw [hpp] at h; exact absurd h (by simp)
      | some rc =>
        obtain ⟨res?, c1, g1⟩ := rc
        rw [hpp] at h
        cases res? with
        | some results =>
          simp only at h
          rcases ih s k sc (i + 1) _ _ (exps ++ results) c1 r2 h with h1 | h2 | h3
          · exact Or.inl h1
          · obtain ⟨hr2, hfe, hfb⟩ := h2
            by_cases hfa : (!isTextExpD g1 && i == 0) = true
            · rw [if_pos hfa] at hr2 hfe
              obtain ⟨htext, hi⟩ := Bool.and_eq_true .. ▸ hfa
              rw [Bool.not_eq_true'] at htext
              have hi0 : i = 0 := by simpa using hi
              subst hi0
              exact Or.inr (Or.inr ⟨rfl, hfb,
                n, g, results, c1, g1, hg, hpp, htext, hfe, hr2⟩)
            · rw [if_neg hfa] at hr2 hfe
              exact Or.inr (Or.inl ⟨hr2, hfe, hfb⟩)
          · obtain ⟨hi, _⟩ := h3
            exact absurd hi (by omega)
        | none =>
          simp only at h
          split at h
          · cases he : eat s c1 (some (.re emptyRegex)) with
            | none => rw [he] at h; exact absurd h (by simp)
            | some tc =>
              obtain ⟨t, c2⟩ := tc
              rw [he] at h
              simp only at h
              rcases ih s k sc (i + 1) fE fEC _ c2 r2 h with h1 | h2 | h3
              · exact Or.inl h1
              · exact Or.inr (Or.inl h2)
              · obtain ⟨hi, _⟩ := h3
                exact absurd hi (by omega)
          · by_cases hfb : k.fallbackToFirstExp = true
            · rw [if_pos hfb] at h
              simp only [Option.some.injEq, Prod.mk.injEq] at h
              obtain ⟨hfe, hr2⟩ := h
              exact Or.inr (Or.inl ⟨hr2.symm, hfe, hfb⟩)
            · rw [if_neg hfb] at h
              simp only [Option.some.injEq, Prod.mk.injEq] at h
              exact Or.inl h.2.symm

/-! ## Claim C2: cursor discipline -/

/-- **C2** (amended).  Every parse invocation exits with the cursor at
or after its entry value.  A failing `ShapeExp.parse` restores the
cursor exactly.  A failing `$AST.parse` restores it exactly, except
through the `fallbackToFirstExp` branch when the first shape position
succeeded with an empty result list (so `firstExp = results[0]` is
absent while `firstExpCursor` was still updated): then the exit cursor
is the cursor right after that first position.  The claim as stated —
every failing invocation restores exactly — is refuted at
`c2_counterexample`. -/
theorem c2_cursor_discipline :
    (∀ n s g c r, shapeExpParse n s g c = some r →
      c ≤ r.2.1 ∧ (r.1 = none → r.2.1 = c)) ∧
    (∀ n s k c r, kindParse n s k c = some r → c ≤ r.2) ∧
    (∀ n s k c r2, baseParse n s k c = some (none, r2) →
      r2 = c ∨ (k.fallbackToFirstExp = true ∧
        ∃ m g results c1 g1, k.shape.get? 0 = some g ∧
          shapeExpParse m s g c = some (some results, c1, g1) ∧
          isTextExpD g1 = false ∧ results = [] ∧ r2 = c1)) := by
  refine ⟨fun n => (parseMonoAll n).2.1, fun n => (parseMonoAll n).2.2.2.2.2.1, ?_⟩
  intro n s k c r2 h
  match n with
  | 0 => simp [baseParse] at h
  | n + 1 =>
    rw [baseParse] at h
    rcases baseLoop_fail n s k c 0 none c [] c r2 h with h1 | h2 | h3
    · exact Or.inl h1
    · exact Or.inl h2.1
    · obtain ⟨_, hfb, m, g, results, c1, g1, hg, hpp, ht, hhd, hr2⟩ := h3
      exact Or.inr ⟨hfb, m, g, results, c1, g1, hg, hpp, ht, by simpa using hhd, hr2⟩

/-- Witness for `c2_cursor_discipline` at concrete inputs: the grammar
`$K = [sub-shape{min 0}, "z"]` on `"+x"` fails while moving the cursor
from `0` to `1`, exactly through the documented fallback exception. -/
theorem c2_cursor_discipline_witness :
    ((0 : Int) ≤ 1) ∧
      ((1 : Int) = 0 ∨ (kBad.fallbackToFirstExp = true ∧
        ∃ m g results c1 g1, kBad.shape.get? 0 = some g ∧
          shapeExpParse m (S "+x") g 0 = some (some results, c1, g1) ∧
          isTextExpD g1 = false ∧ results = [] ∧ (1 : Int) = c1)) :=
  ⟨c2_cursor_discipline.2.1 41 (S "+x") kBad 0 (none, 1) rfl,
   c2_cursor_discipline.2.2 40 (S "+x") kBad 0 1 rfl⟩

/-- **C2** counterexample: a failing `$AST.parse` invocation whose exit
cursor (`1`) differs from its entry cursor (`0`).  The kind has
`fallbackToFirstExp` (the default); its first shape position is the
sub-shape `new Shape(["+", "-"], "q")` with `{min: 0}`.  On `"+x"` the
sub-shape's driver falls back to the `"+"` token, whose missing `exps`
make the sub-shape expression fail *after* the cursor moved, the
`{min: 0}` turns that into an empty success, and the enclosing driver's
fallback then returns `undefined` (failure) at the moved cursor. -/
theorem c2_counterexample :
    baseParse 40 (S "+x") kBad 0 = some (none, 1) ∧ (1 : Int) ≠ 0 :=
  ⟨rfl, by decide⟩

/-! ## Claim C4: the fallback-to-first-exp policy -/

/-- **C4** (confirmed).  Part 1: when the first shape position is (after
lazy resolution) not a literal/pattern and succeeds with result list
`res`, the driver continues from position `1` with
`firstExp = res.head?` (the first element `res[0]` produced by that
expression) and `firstExpCursor =` the cursor right after its parse.
Part 2: every later successful position carries `firstExp` and
`firstExpCursor` unchanged.  Part 3: a later failing position, when the
incomplete-parse branch does not apply and `fallbackToFirstExp` holds,
returns exactly `(firstExp, firstExpCursor)`. -/
theorem c4_fallback_first_exp :
    (∀ n s (k : KindD) c g0 res c1 g1,
      k.shape.get? 0 = some g0 →
      shapeExpParse n s g0 c = some (some res, c1, g1) →
      isTextExpD g1 = false →
      baseParse (n + 2) s k c = baseLoop n s k c 1 res.head? c1 res c1) ∧
    (∀ n s (k : KindD) sc i fE fEC exps c gi results cr gi',
      1 ≤ i →
      k.shape.get? i = some gi →
      shapeExpParse n s gi c = some (some results, cr, gi') →
      baseLoop (n + 1) s k sc i fE fEC exps c =
        baseLoop n s k sc (i + 1) fE fEC (exps ++ results) cr) ∧
    (∀ n s (k : KindD) sc i fE fEC exps c gi cr gi',
      1 ≤ i →
      k.shape.get? i = some gi →
      shapeExpParse n s gi c = some (none, cr, gi') →
      ¬(k.allowIncompleteParse = true ∧
        k.incompleteParseThreshold ≤ contentCount exps) →
      k.fallbackToFirstExp = true →
      baseLoop (n + 1) s k sc i fE fEC exps c = some (fE, fEC)) := by
  refine ⟨?_, ?_, ?_⟩
  · intro n s k c g0 res c1 g1 h0 hpp hnt
    rw [baseParse, baseLoop, h0]
    simp only
    rw [hpp]
    simp only [hnt, Bool.not_false, Bool.true_and, beq_self_eq_true, if_pos,
      List.nil_append]
  · intro n s k sc i fE fEC exps c gi results cr gi' hi hgi hpp
    rw [baseLoop, hgi]
    simp only
    rw [hpp]
    have hne : (!isTextExpD gi' && i == 0) = false := by
      have : (i == 0) = false := by
        simp only [beq_eq_false_iff_ne, ne_eq]
        omega
      simp [this]
    simp only [hne, Bool.false_eq_true, if_false]
  · intro n s k sc i fE fEC exps c gi cr gi' hi hgi hpp hni hfb
    rw [baseLoop, hgi]
    simp only
    rw [hpp]
    have hcond : (k.allowIncompleteParse &&
        decide (k.incompleteParseThreshold ≤ contentCount exps)) = false := by
      by_cases ha : k.allowIncompleteParse = true
      · by_cases hb : k.incompleteParseThreshold ≤ contentCount exps
        · exact absurd ⟨ha, hb⟩ hni
        · simp [hb]
      · simp [Bool.not_eq_true] at ha
        simp [ha]
    simp only [hcond, Bool.false_eq_true, if_false, hfb, if_pos]

/-- Witness for `c4_fallback_first_exp`: on `"1x"` with the `$ADD`
grammar, position `0` produces the `$NUMBER` node and position `1`
(`"+"`) fails, so the driver returns that node with the cursor after
it. -/
theorem c4_fallback_first_exp_witness :
    baseParse 22 (S "1x") addKind 0 =
      baseLoop 20 (S "1x") addKind 0 1 (some numNode1) 1 [numNode1] 1 ∧
    baseLoop 21 (S "1x") addKind 0 1 (some numNode1) 1 [numNode1] 1 =
      some (some numNode1, 1) := by
  constructor
  · exact c4_fallback_first_exp.1 20 (S "1x") addKind 0
      (.mk (.kref numKind) (some (.str ['+'])) 1 (some 1) none)
      [numNode1] 1 (.mk (.kref numKind) (some (.str ['+'])) 1 (some 1) none)
      rfl rfl rfl
  · exact c4_fallback_first_exp.2.2 20 (S "1x") addKind 0 1 (some numNode1) 1
      [numNode1] 1 (.mk (.lit ['+']) none 1 (some 1) none) 1
      (.mk (.lit ['+']) none 1 (some 1) none)
      (by omega) rfl rfl (by simp [addKind, KindD.allowIncompleteParse]) rfl

/-! ## Claim C5: incomplete parse and validation -/

/-- **C5** (confirmed).  Part 1: when a shape position fails under
`allowIncompleteParse` with at least `incompleteParseThreshold` content
children accumulated, the driver appends a synthetic missing token —
empty value, positioned at the current cursor, flagged `isMissing`,
carrying the back-reference to the failed (resolved) shape expression —
and continues with the next position.  Part 2: `validate` yields exactly
one diagnostic per missing token whose shape expression carries a truthy
message, at that token's `line`/`col` with that message, and none
otherwise. -/
theorem c5_missing_token_validate :
    (∀ n s (k : KindD) sc i fE fEC exps c gi cr gi',
      k.shape.get? i = some gi →
      shapeExpParse n s gi c = some (none, cr, gi') →
      k.allowIncompleteParse = true →
      k.incompleteParseThreshold ≤ contentCount exps →
      ∃ t : Token, t.value = [] ∧ t.start = cr ∧ t.tokEnd = cr ∧
        t.isMissing = true ∧ t.sref = some ⟨gi'.e⟩ ∧
        t.line = jsCurrentLine s cr ∧
        baseLoop (n + 1) s k sc i fE fEC exps c =
          baseLoop n s k sc (i + 1) fE fEC (exps ++ [.tok t]) cr) ∧
    (∀ e : Exp, validateE e =
      (e.tokens.filter (fun t => t.isMissing && (missingMsg t).isSome)).map
        (fun t => ⟨t.line, t.col, (missingMsg t).getD []⟩)) := by
  constructor
  · intro n s k sc i fE fEC exps c gi cr gi' hgi hpp ha hb
    refine ⟨{ value := [], start := cr, tokEnd := cr,
              line := jsCurrentLine s cr,
              col := (if cr - jsLastIndexOfNL s (cr - 1) - 1 < 0 then 0
                      else cr - jsLastIndexOfNL s (cr - 1) - 1),
              indent := lineIndentI s (jsCurrentLine s cr),
              isMissing := true, sref := some ⟨gi'.e⟩ },
      rfl, rfl, rfl, rfl, rfl, rfl, ?_⟩
    rw [baseLoop, hgi]
    simp only
    rw [hpp]
    have hcond : (k.allowIncompleteParse &&
        decide (k.incompleteParseThreshold ≤ contentCount exps)) = true := by
      simp [ha, hb]
    simp only [hcond, if_pos]
    rw [eat_emptyRegex]
  · intro e
    unfold validateE
    induction e.tokens with
    | nil => rfl
    | cons t ts ih =>
      by_cases h1 : t.isMissing = true
      · cases h2 : missingMsg t with
        | some m =>
          simp [List.filterMap_cons, List.filter_cons, h1, h2, ih]
        | none =>
          simp [List.filterMap_cons, List.filter_cons, h1, h2, ih]
      · rw [Bool.not_eq_true] at h1
        simp [List.filterMap_cons, List.filter_cons, h1, ih]

/-- Witness for `c5_missing_token_validate`: the `$ADD` grammar with
`allowIncompleteParse` and threshold `2` on `"1+"`, at the failing third
position; and `validate` on the resulting partial node produces exactly
the one diagnostic of its missing token. -/
theorem c5_missing_token_validate_witness :
    (∃ t : Token, t.value = [] ∧ t.start = 2 ∧ t.tokEnd = 2 ∧
      t.isMissing = true ∧ t.sref = some ⟨some (S "expected number")⟩ ∧
      t.line = jsCurrentLine (S "1+") 2 ∧
      baseLoop 21 (S "1+") addIncompleteKind 0 2 (some numNode1) 1
          [numNode1, .tok plusTok1] 2 =
        baseLoop 20 (S "1+") addIncompleteKind 0 3 (some numNode1) 1
          [numNode1, .tok plusTok1, .tok t] 2) ∧
    validateE incompleteNode =
      (incompleteNode.tokens.filter
        (fun t => t.isMissing && (missingMsg t).isSome)).map
          (fun t => ⟨t.line, t.col, (missingMsg t).getD []⟩) :=
  ⟨c5_missing_token_validate.1 20 (S "1+") addIncompleteKind 0 2 (some numNode1)
      1 [numNode1, .tok plusTok1] 2
      (.mk (.kref numKind) none 1 (some 1) (some (S "expected number"))) 2
      (.mk (.kref numKind) none 1 (some 1) (some (S "expected number")))
      rfl rfl rfl (by decide),
   c5_missing_token_validate.2 incompleteNode⟩

/-! ## Claim C6: the left-recursive driver -/

/-- **C6** (amended).  In the left-recursive driver's loop: an iteration
that sees the right delimiter via `taste` and parses the tail
successfully folds into a new node whose children are
`[$left, ...tail.exps]` (left-associative) and keeps `leftCursor`
unchanged; and when tail parsing fails, the driver returns the current
`$left` with the cursor restored to `leftCursor` — the position reached
after the *first* expression's parse, which no fold ever updates (the
original claim's "position after the most recent successful fold" is
refuted at `c6_counterexample`). -/
theorem c6_left_recursive :
    (∀ n s (k : KindD) left lc c g0 nm rexps c',
      k.shape.head? = some g0 →
      (taste s c g0.rightDelimeter).isSome = true →
      baseParse n s (rightKind k) c = some (some (.node nm rexps), c') →
      lrLoop (n + 1) s k (some left) lc c =
        lrLoop n s k (some (.node k.name (left :: rexps))) lc c') ∧
    (∀ n s (k : KindD) left lc c g0 c',
      k.shape.head? = some g0 →
      (taste s c g0.rightDelimeter).isSome = true →
      baseParse n s (rightKind k) c = some (none, c') →
      lrLoop (n + 1) s k left lc c = some (left, lc)) := by
  constructor
  · intro n s k left lc c g0 nm rexps c' hg0 ht hb
    rw [lrLoop, hg0]
    simp only [ht, if_pos]
    rw [hb]
  · intro n s k left lc c g0 c' hg0 ht hb
    rw [lrLoop, hg0]
    simp only [ht, if_pos]
    rw [hb]

/-- Witness for `c6_left_recursive` on `"1+2+"`: the fold at cursor `1`
produces the node `[$left, "+", $NUMBER]`, and the failing tail at
cursor `3` returns the current `$left` at `leftCursor = 1`. -/
theorem c6_left_recursive_witness :
    lrLoop 21 (S "1+2+") sumKind (some numNode1) 1 1 =
      lrLoop 20 (S "1+2+") sumKind (some sumNode12) 1 3 ∧
    lrLoop 21 (S "1+2+") sumKind (some sumNode12) 1 3 =
      some (some sumNode12, 1) :=
  ⟨c6_left_recursive.1 20 (S "1+2+") sumKind numNode1 1 1
      (.mk (.kref numKind) (some (.str ['+'])) 1 (some 1) none)
      "$RIGHT" [.tok plusTok1, numNode2] 3 rfl rfl rfl,
   c6_left_recursive.2 20 (S "1+2+") sumKind (some sumNode12) 1 3
      (.mk (.kref numKind) (some (.str ['+'])) 1 (some 1) none) 3 rfl rfl rfl⟩

/-- **C6** counterexample: on `"1+2+"` the left-recursive `$SUM` driver
returns a node whose text is `"1+2"` and whose last token ends at
offset `3` (the position after the most recent successful fold), yet the
exit cursor is `1` — the cursor is *not* restored to the last good
position. -/
theorem c6_counterexample :
    (kindParse 60 (S "1+2+") sumKind 0).map
        (fun r => (r.1.map (fun e => (Exp.text e, lastTokEnd e)), r.2)) =
      some (some (S "1+2", 3), 1) ∧ (1 : Int) ≠ 3 :=
  ⟨rfl, by decide⟩

/-! ## Claim C9: sub-shape parsing through the anonymous inline kind -/

/-- **C9** (amended).  The anonymous `class $SUB_SHAPE_AST extends $AST`
driving a sub-shape inherits the base-class defaults
`fallbackToFirstExp = true` and `allowIncompleteParse = false`.
Consequently, when that driver returns a *node* (in particular the
fallback's first successful child, when it is a node), the sub-shape
expression produces that node's `exps` spliced as its result; but when
the driver returns a bare *token* (the fallback's first child being a
token), `ast.exps` is `undefined` and the sub-shape attempt fails
instead of producing a result — the unrestricted claim is refuted at
`c9_counterexample`. -/
theorem c9_subshape_unwrap :
    (∀ sh, (subShapeKind sh).fallbackToFirstExp = true ∧
      (subShapeKind sh).allowIncompleteParse = false) ∧
    (∀ n s sh rd mn mx msg c nm es c',
      kindParse n s (subShapeKind sh) c = some (some (.node nm es), c') →
      subAttempt (n + 1) s (.mk (.sub sh) rd mn mx msg) c = some (some es, c')) ∧
    (∀ n s sh rd mn mx msg c t c',
      kindParse n s (subShapeKind sh) c = some (some (.tok t), c') →
      subAttempt (n + 1) s (.mk (.sub sh) rd mn mx msg) c = some (none, c')) := by
  refine ⟨fun sh => ⟨rfl, rfl⟩, ?_, ?_⟩
  · intro n s sh rd mn mx msg c nm es c' hk
    rw [subAttempt]
    simp only [ShapeExpD.val]
    rw [hk]
  · intro n s sh rd mn mx msg c t c' hk
    rw [subAttempt]
    simp only [ShapeExpD.val]
    rw [hk]

/-- Witness for `c9_subshape_unwrap`: on `"1x"`, the sub-shape
`new Shape($NUMBER, "q")` unwraps into the `$NUMBER` node's `exps`; on
`"+x"`, the sub-shape `new Shape(["+","-"], "q")` receives the bare
`"+"` token from the fallback and fails. -/
theorem c9_subshape_unwrap_witness :
    subAttempt 31 (S "1x")
        (.mk (.sub [.mk (.kref numKind) none 1 (some 1) none, qExp])
          none 1 (some 1) none) 0 =
      some (some [.tok
        { value := ['1'], start := 0, tokEnd := 1, line := 0, col := 0,
          indent := some 0, isMissing := false, sref := some ⟨none⟩ }], 1) ∧
    subAttempt 30 (S "+x") (.mk (.sub [altPM, qExp]) none 1 (some 1) none) 0 =
      some (none, 1) :=
  ⟨c9_subshape_unwrap.2.1 30 (S "1x")
      [.mk (.kref numKind) none 1 (some 1) none, qExp]
      none 1 (some 1) none 0 "$NUMBER" _ 1 rfl,
   c9_subshape_unwrap.2.2 29 (S "+x") [altPM, qExp]
      none 1 (some 1) none 0 plusTok0 1 rfl⟩

/-- **C9** counterexample: in the sub-shape `new Shape(["+","-"], "q")`
on `"+x"`, the first element (the alternation — not a literal) succeeds
with the `"+"` token while the later `"q"` fails, yet the sub-shape
expression fails cleanly (`null`, cursor restored) instead of producing
a result with the first element's first child. -/
theorem c9_counterexample :
    shapeExpParse 30 (S "+x") altPM 0 = some (some [.tok plusTok0], 1, altPM) ∧
    shapeExpParse 30 (S "+x") qExp 1 = some (none, 1, qExp) ∧
    shapeExpParse 30 (S "+x") subPMq 0 = some (none, 0, subPMq) :=
  ⟨rfl, rfl, rfl⟩

/-! ## Claim C10: whitespace classification of tokens -/

theorem jsTrim_isEmpty_iff (v : Str) :
    (jsTrim v).isEmpty = true ↔ v.all isJsWsChar = true := by
  induction v with
  | nil => simp [jsTrim, jsTrimStart, jsTrimEnd]
  | cons c cs ih =>
    by_cases hw : isJsWsChar c = true
    · have h1 : jsTrim (c :: cs) = jsTrim cs := by
        simp [jsTrim, jsTrimStart, List.dropWhile_cons, hw]
      rw [h1, ih]
      simp [List.all_cons, hw]
    · have h1 : jsTrimStart (c :: cs) = c :: cs := by
        simp [jsTrimStart, List.dropWhile_cons, hw]
      rw [jsTrim, h1]
      unfold jsTrimEnd
      simp only [List.isEmpty_iff, List.reverse_eq_nil_iff,
        List.dropWhile_eq_nil_iff, List.mem_reverse, List.all_eq_true]

/-- **C10** (confirmed).  A token is whitespace exactly when its value
has no non-whitespace character; a token with empty value (in
particular every synthetic missing token) is whitespace, is excluded
from `contentExps` and `contentTokens`, and does not count toward the
incomplete-parse content test. -/
theorem c10_whitespace_classification :
    (∀ t : Token, t.isWhiteSpace = true ↔ t.value.all isJsWsChar = true) ∧
    (∀ t : Token, t.value = [] → t.isWhiteSpace = true) ∧
    (∀ (es : List Exp) (t : Token), t.value = [] →
      Exp.tok t ∉ contentExpsL es) ∧
    (∀ (e : Exp) (t : Token), t.value = [] → t ∉ e.contentTokens) ∧
    (∀ (es : List Exp) (t : Token), t.value = [] →
      contentCount (es ++ [.tok t]) = contentCount es) := by
  have hws : ∀ t : Token, t.value = [] → t.isWhiteSpace = true := by
    intro t h
    unfold Token.isWhiteSpace
    rw [h]
    rfl
  refine ⟨fun t => jsTrim_isEmpty_iff t.value, hws, ?_, ?_, ?_⟩
  · intro es t h
    intro hmem
    have := (List.mem_filter.mp hmem).2
    simp only [hws t h, Bool.not_true] at this
    exact absurd this (by simp)
  · intro e t h hmem
    have := (List.mem_filter.mp hmem).2
    simp only [Exp.contentTokens] at this ⊢
    rw [hws t h] at this
    exact absurd this (by simp)
  · intro es t h
    unfold contentCount
    rw [List.filter_append]
    have : (jsTrim t.value).isEmpty = true := hws t h
    simp [this]

/-- Witness for `c10_whitespace_classification` at the concrete missing
token of `"1+"`. -/
theorem c10_whitespace_classification_witness :
    missTok2.isWhiteSpace = true ∧
    Exp.tok missTok2 ∉ contentExpsL [numNode1, .tok plusTok1, .tok missTok2] ∧
    contentCount [numNode1, .tok plusTok1, .tok missTok2] =
      contentCount [numNode1, .tok plusTok1] :=
  ⟨c10_whitespace_classification.2.1 missTok2 rfl,
   c10_whitespace_classification.2.2.1 [numNode1, .tok plusTok1, .tok missTok2]
     missTok2 rfl,
   c10_whitespace_classification.2.2.2.2 [numNode1, .tok plusTok1] missTok2 rfl⟩

/-! ## Claim C7: what a successful `ShapeExp.parse` returns -/

theorem wsEatLoop_ne_nil : ∀ n s res c r,
    wsEatLoop n s res c = some r → res ≠ [] → r.1 ≠ [] := by
  intro n
  induction n with
  | zero => intro s res c r h; simp [wsEatLoop] at h
  | succ n ih =>
    intro s res c r h hne
    rw [wsEatLoop] at h
    cases he : eat s c wsPat with
    | none =>
      rw [he] at h
      obtain rfl := Option.some.inj h
      exact hne
    | some tc =>
      obtain ⟨t, c1⟩ := tc
      rw [he] at h
      exact ih s (res ++ [Exp.tok t]) c1 r h (by simp)

theorem resolveOnce_textOrKref {g : ShapeExpD} (h : isTextOrKref g = true) :
    resolveOnce g = g := by
  unfold resolveOnce
  unfold isTextOrKref at h
  match hv : g.val with
  | .lit v => rfl
  | .re r => rfl
  | .kref k => rfl
  | .alt bs => rfl
  | .sub sh => rfl
  | .lazy f =>
    rw [hv] at h
    simp at h

theorem subAttempt_nonempty : ∀ n s g c rs c',
    subAttempt n s g c = some (some rs, c') → isTextOrKref g = true →
    rs ≠ [] := by
  intro n s g c rs c' h hg
  match n with
  | 0 => simp [subAttempt] at h
  | n + 1 =>
    rw [subAttempt] at h
    unfold isTextOrKref at hg
    match hv : g.val with
    | .lit v =>
      rw [hv] at h
      simp only at h
      cases he : eat s c (some (.str v)) with
      | none =>
        rw [he] at h
        simp only [Option.some.injEq, Prod.mk.injEq] at h
        exact absurd h.1 (by simp)
      | some tc =>
        obtain ⟨t, c1⟩ := tc
        rw [he] at h
        simp only [Option.some.injEq, Prod.mk.injEq] at h
        rw [← h.1]
        simp
    | .re rr =>
      rw [hv] at h
      simp only at h
      cases he : eat s c (some (.re rr)) with
      | none =>
        rw [he] at h
        simp only [Option.some.injEq, Prod.mk.injEq] at h
        exact absurd h.1 (by simp)
      | some tc =>
        obtain ⟨t, c1⟩ := tc
        rw [he] at h
        simp only [Option.some.injEq, Prod.mk.injEq] at h
        rw [← h.1]
        simp
    | .kref k =>
      rw [hv] at h
      simp only at h
      split at h
      · simp only [Option.some.injEq, Prod.mk.injEq] at h
        exact absurd h.1 (by simp)
      · cases hk : kindParse n s k c with
        | none => rw [hk] at h; exact absurd h (by simp)
        | some rc =>
          obtain ⟨ex?, c1⟩ := rc
          rw [hk] at h
          cases ex? with
          | none =>
            simp only [Option.some.injEq, Prod.mk.injEq] at h
            exact absurd h.1 (by simp)
          | some ex =>
            simp only [Option.some.injEq, Prod.mk.injEq] at h
            rw [← h.1]
            simp
    | .alt bs => rw [hv] at hg; simp at hg
    | .sub sh => rw [hv] at hg; simp at hg
    | .lazy f => rw [hv] at hg; simp at hg

theorem shapeExpLoop_preserve : ∀ n s g sc i res c l c' g',
    shapeExpLoop n s g sc i res c = some (some l, c', g') → res ≠ [] →
    l ≠ [] := by
  intro n
  induction n with
  | zero => intro s g sc i res c l c' g' h; simp [shapeExpLoop] at h
  | succ n ih =>
    intro s g sc i res c l c' g' h hne
    rw [shapeExpLoop] at h
    split at h
    · cases hw : wsEatLoop n s res c with
      | none => rw [hw] at h; exact absurd h (by simp)
      | some rc =>
        obtain ⟨res1, c1⟩ := rc
        rw [hw] at h
        simp only at h
        have hres1 : res1 ≠ [] := wsEatLoop_ne_nil n s res c ⟨res1, c1⟩ hw hne
        cases hs : subAttempt n s (resolveOnce g) c1 with
        | none => rw [hs] at h; exact absurd h (by simp)
        | some rc2 =>
          obtain ⟨res?, c2⟩ := rc2
          rw [hs] at h
          cases res? with
          | some rs =>
            simp only at h
            exact ih s (resolveOnce g) sc (i + 1) (res1 ++ rs) c2 l c' g' h
              (by simp [hres1])
          | none =>
            simp only at h
            split at h
            · simp only [Option.some.injEq, Prod.mk.injEq] at h
              rw [← h.1]
              exact hres1
            · simp at h
    · simp only [Option.some.injEq, Prod.mk.injEq] at h
      rw [← h.1]
      exact hne

/-- **C7** (amended).  A successful `ShapeExp.parse` leaves the cursor
at or after its entry (part 1); and its result list is non-empty
whenever `min ≥ 1`, `max ≥ 1` and the expression is a literal, pattern
or node reference (part 2).  Success with an *empty* list is possible —
for a `{min: 0}` expression, and even with `min = 1` for an alternation
whose winning branch returns an empty list — see `c7_counterexample`. -/
theorem c7_success_list :
    (∀ n s g c l c' g',
      shapeExpParse n s g c = some (some l, c', g') → c ≤ c') ∧
    (∀ n s g c l c' g', 1 ≤ g.min →
      (g.max = none ∨ ∃ m, g.max = some m ∧ 1 ≤ m) →
      isTextOrKref g = true →
      shapeExpParse n s g c = some (some l, c', g') → l ≠ []) := by
  constructor
  · intro n s g c l c' g' h
    exact ((parseMonoAll n).2.1 s g c (some l, c', g') h).1
  · intro n s g c l c' g' hmin hmx hflag h
    match n with
    | 0 => simp [shapeExpParse] at h
    | n + 1 =>
      rw [shapeExpParse] at h
      match n with
      | 0 => simp [shapeExpLoop] at h
      | m + 1 =>
        rw [shapeExpLoop] at h
        have hmax : (match g.max with
            | none => true
            | some mm => decide (0 < mm)) = true := by
          rcases hmx with h0 | ⟨mm, hmm, h1⟩
          · simp [h0]
          · rw [hmm]
            simp only [decide_eq_true_eq]
            omega
        rw [hmax] at h
        simp only [Bool.true_and, Bool.or_true, beq_self_eq_true, if_pos] at h
        cases hw : wsEatLoop m s [] c with
        | none => rw [hw] at h; exact absurd h (by simp)
        | some rc =>
          obtain ⟨res1, c1⟩ := rc
          rw [hw] at h
          simp only at h
          rw [resolveOnce_textOrKref hflag] at h
          cases hs : subAttempt m s g c1 with
          | none => rw [hs] at h; exact absurd h (by simp)
          | some rc2 =>
            obtain ⟨res?, c2⟩ := rc2
            rw [hs] at h
            cases res? with
            | some rs =>
              simp only at h
              have hrs : rs ≠ [] :=
                subAttempt_nonempty m s g c1 rs c2 hs hflag
              exact shapeExpLoop_preserve m s g c (0 + 1) (res1 ++ rs) c2 l c' g' h
                (by simp [hrs])
            | none =>
              simp only at h
              rw [if_neg (by omega)] at h
              simp at h

/-- Witness for `c7_success_list`: the `$NUMBER` reference of the `$ADD`
shape succeeds on `"1x"` with one element and the cursor moved from `0`
to `1`. -/
theorem c7_success_list_witness :
    (0 : Int) ≤ 1 ∧ ([numNode1] : List Exp) ≠ [] :=
  ⟨c7_success_list.1 20 (S "1x")
      (.mk (.kref numKind) (some (.str ['+'])) 1 (some 1) none) 0
      [numNode1] 1 (.mk (.kref numKind) (some (.str ['+'])) 1 (some 1) none) rfl,
   c7_success_list.2 20 (S "1x")
      (.mk (.kref numKind) (some (.str ['+'])) 1 (some 1) none) 0
      [numNode1] 1 (.mk (.kref numKind) (some (.str ['+'])) 1 (some 1) none)
      (by decide) (Or.inr ⟨1, rfl, by decide⟩) rfl rfl⟩

/-- **C7** counterexample: successful `ShapeExp.parse` invocations that
return an *empty* list — a `{min: 0}` literal on non-matching input, and
an alternation with `min = 1` whose winning branch is that `{min: 0}`
expression. -/
theorem c7_counterexample :
    shapeExpParse 20 (S "b") litAmin0 0 = some (some [], 0, litAmin0) ∧
    shapeExpParse 20 (S "b") altMin0 0 = some (some [], 0, altMin0) ∧
    1 ≤ altMin0.min :=
  ⟨rfl, rfl, by decide⟩

/-! ## Claim C1: no whitespace skip in the matching primitives -/

theorem strTasteMatch_slice {s : Str} {a : Nat} {lit : Str} :
    strTasteMatch lit (s.drop a) = true ↔ sliceN s a (a + lit.length) = lit := by
  rw [strTasteMatch_iff, sliceN]
  have h : a + lit.length - a = lit.length := by omega
  rw [h]

/-- **C1** (amended).  Neither `taste` nor `eat` advances past any
characters before matching: the `eatLeadingWhitespace` closure in the
source is never invoked.  A literal matches exactly when it occurs
verbatim at the cursor (part 1); `taste` reports the literal itself and
advances the taste cursor by its length (part 2), and `eat` produces the
token at the unmoved cursor (part 3).  In particular `taste("a")` on
`" a"` at cursor `0` fails — see `c1_counterexample`; whitespace between
grammar elements is instead consumed by `ShapeExp.parse`'s explicit
`WHITESPACE_REGEX` loop. -/
theorem c1_no_whitespace_skip :
    (∀ s (c : Int) (lit : Str), lit ≠ [] →
      ((taste s c (some (.str lit))).isSome = true ↔
        (0 ≤ c ∧ sliceN s c.toNat (c.toNat + lit.length) = lit))) ∧
    (∀ s (c : Int) (lit v : Str) (tc : Int),
      taste s c (some (.str lit)) = some (v, tc) →
      v = lit ∧ tc = c + lit.length) ∧
    (∀ s (c : Int) (lit : Str) (t : Token) (c2 : Int),
      eat s c (some (.str lit)) = some (t, c2) →
      t.value = lit ∧ t.start = c ∧ c2 = c + lit.length) := by
  have hpart2 : ∀ s (c : Int) (lit v : Str) (tc : Int),
      taste s c (some (.str lit)) = some (v, tc) →
      v = lit ∧ tc = c + lit.length := by
    intro s c lit v tc h
    unfold taste at h
    split at h
    · simp at h
    · simp only at h
      split at h
      · simp only [Option.some.injEq, Prod.mk.injEq] at h
        exact ⟨h.1.symm, h.2.symm⟩
      · simp at h
  refine ⟨?_, hpart2, ?_⟩
  · intro s c lit hne
    have hemp : lit.isEmpty = false := by simp [List.isEmpty_iff, hne]
    unfold taste patTruthy
    simp only
    rw [hemp]
    simp only [Bool.not_false, Bool.not_true, Bool.false_eq_true, if_false]
    by_cases h0 : (decide (0 ≤ c) && strTasteMatch lit (s.drop c.toNat)) = true
    · rw [if_pos h0]
      simp only [Option.isSome_some, true_iff]
      obtain ⟨hc, hm⟩ := Bool.and_eq_true .. ▸ h0
      exact ⟨by simpa using hc, strTasteMatch_slice.mp hm⟩
    · rw [if_neg h0]
      simp only [Option.isSome_none, Bool.false_eq_true, false_iff]
      rintro ⟨hc, hsl⟩
      exact h0 (by simp [hc, strTasteMatch_slice.mpr hsl])
  · intro s c lit t c2 h
    obtain ⟨v, ht, hc2, htok⟩ := eat_elim h
    obtain ⟨hv, _⟩ := hpart2 s c lit v (c + v.length) ht
    subst htok
    subst hv
    exact ⟨rfl, rfl, hc2⟩

/-- Witness for `c1_no_whitespace_skip` on `"ab"` at cursor `0` with
literal `"ab"`. -/
theorem c1_no_whitespace_skip_witness :
    ((taste (S "ab") 0 (some (.str (S "ab")))).isSome = true ↔
      ((0 : Int) ≤ 0 ∧ sliceN (S "ab") 0 (0 + (S "ab").length) = S "ab")) ∧
    (S "ab" = S "ab" ∧ (2 : Int) = 0 + (S "ab").length) :=
  ⟨c1_no_whitespace_skip.1 (S "ab") 0 (S "ab") (by decide),
   c1_no_whitespace_skip.2.1 (S "ab") 0 (S "ab") (S "ab") 2 rfl⟩

/-- **C1** counterexample: on input `" a"` at cursor `0`, `taste("a")`
and `eat("a")` both fail (no whitespace is skipped); a leading tab
behaves the same way. -/
theorem c1_counterexample :
    taste (S " a") 0 (some (.str (S "a"))) = none ∧
    eat (S " a") 0 (some (.str (S "a"))) = none ∧
    taste (S "\ta") 0 (some (.str (S "a"))) = none :=
  ⟨rfl, rfl, rfl⟩

/-! ## Claim C8: concrete Lexer line values -/

/-- **C8** (amended): over `"ab\n  cd\n    ef"` the lines are `"ab"`,
`"  cd"`, `"    ef"` with offsets `[0,2]`, `[3,7]`, `[8,14]`, so
`lineStart(2) = 8`, `lineEnd(2) = 14`, `lineIndent(2) = 4`, and
`linesInRange(3, 7) = [1]` (only line 1's interval `[3,7]` meets
`[3,7]`).  The claimed values `7`, `13`, `[1, 2]` are refuted at
`c8_counterexample`. -/
theorem c8_lexer_values :
    lineStartL (S "ab\n  cd\n    ef") 2 = 8 ∧
    lineEndL (S "ab\n  cd\n    ef") 2 = 14 ∧
    lineIndentL (S "ab\n  cd\n    ef") 2 = some 4 ∧
    linesInRangeL (S "ab\n  cd\n    ef") 3 7 = [1] :=
  ⟨rfl, rfl, rfl, rfl⟩

/-- **C8** counterexample: the claimed values do not hold on the code's
line machinery. -/
theorem c8_counterexample :
    ¬(lineStartL (S "ab\n  cd\n    ef") 2 = 7 ∧
      lineEndL (S "ab\n  cd\n    ef") 2 = 13 ∧
      lineIndentL (S "ab\n  cd\n    ef") 2 = some 4 ∧
      linesInRangeL (S "ab\n  cd\n    ef") 3 7 = [1, 2]) := by
  decide

/-! ## Claim C3: token positions — line structure lemmas -/

theorem splitNL_ne_nil (s : Str) : splitNL s ≠ [] := by
  cases s with
  | nil => simp [splitNL]
  | cons c rest =>
    unfold splitNL
    by_cases h : c = '\n'
    · simp [h]
    · rw [if_neg h]
      match splitNL rest with
      | [] => simp
      | l :: ls => simp

theorem joinNL_splitNL (s : Str) : joinNL (splitNL s) = s := by
  induction s with
  | nil => rfl
  | cons c rest ih =>
    unfold splitNL
    by_cases h : c = '\n'
    · rw [if_pos h]
      subst h
      match hs : splitNL rest with
      | [] => exact absurd hs (splitNL_ne_nil rest)
      | l :: ls =>
        rw [hs] at ih
        unfold joinNL
        simpa using ih
    · rw [if_neg h]
      match hs : splitNL rest with
      | [] => exact absurd hs (splitNL_ne_nil rest)
      | [l] =>
        rw [hs] at ih
        unfold joinNL at ih ⊢
        simpa using ih
      | l :: l2 :: ls =>
        rw [hs] at ih
        unfold joinNL at ih ⊢
        simpa using ih

theorem splitNL_no_nl (s : Str) : ∀ l ∈ splitNL s, '\n' ∉ l := by
  induction s with
  | nil => simp [splitNL]
  | cons c rest ih =>
    unfold splitNL
    by_cases h : c = '\n'
    · rw [if_pos h]
      intro l hl
      rcases List.mem_cons.mp hl with h1 | h1
      · subst h1; simp
      · exact ih l h1
    · rw [if_neg h]
      match hs : splitNL rest with
      | [] => exact absurd hs (splitNL_ne_nil rest)
      | l0 :: ls =>
        intro l hl
        rcases List.mem_cons.mp hl with h1 | h1
        · subst h1
          intro hmem
          rcases List.mem_cons.mp hmem with h2 | h2
          · exact h h2.symm
          · exact ih l0 (hs ▸ List.mem_cons_self l0 ls) h2
        · exact ih l (hs ▸ List.mem_cons_of_mem l0 h1)

/-! Offsets structure (generic in the accumulated base `cur`). -/

theorem lineOffsetsAux_length (ls : List Str) (cur : Nat) :
    (lineOffsetsAux ls cur).length = ls.length := by
  induction ls generalizing cur with
  | nil => rfl
  | cons l rest ih => simp [lineOffsetsAux, ih]

theorem lineOffsetsAux_get (ls : List Str) (cur : Nat) :
    ∀ i st en, (lineOffsetsAux ls cur).get? i = some (st, en) →
      ∃ l, ls.get? i = some l ∧ en = st + l.length ∧ cur ≤ st := by
  induction ls generalizing cur with
  | nil => intro i st en h; simp [lineOffsetsAux] at h
  | cons l rest ih =>
    intro i st en h
    cases i with
    | zero =>
      simp only [lineOffsetsAux, List.get?] at h
      obtain ⟨h1, h2⟩ := Prod.mk.injEq .. ▸ Option.some.inj h
      exact ⟨l, rfl, by omega, by omega⟩
    | succ i =>
      simp only [lineOffsetsAux, List.get?] at h
      obtain ⟨l2, hl2, he, hc⟩ := ih (cur + l.length + 1) i st en h
      exact ⟨l2, hl2, he, by omega⟩

theorem lineOffsetsAux_adjacent (ls : List Str) (cur : Nat) :
    ∀ i st en st2 en2, (lineOffsetsAux ls cur).get? i = some (st, en) →
      (lineOffsetsAux ls cur).get? (i + 1) = some (st2, en2) →
      st2 = en + 1 := by
  induction ls generalizing cur with
  | nil => intro i st en st2 en2 h; simp [lineOffsetsAux] at h
  | cons l rest ih =>
    intro i st en st2 en2 h h2
    cases i with
    | zero =>
      simp only [lineOffsetsAux, List.get?] at h h2
      obtain ⟨ha, hb⟩ := Prod.mk.injEq .. ▸ Option.some.inj h
      obtain ⟨l2, _, _, hc⟩ := lineOffsetsAux_get rest (cur + l.length + 1) 0 st2 en2 h2
      subst ha hb
      -- st2 is the head of the tail offsets: compute directly
      match hrest : rest with
      | [] => simp [lineOffsetsAux] at h2
      | r :: rs =>
        simp only [lineOffsetsAux, List.get?] at h2
        obtain ⟨hd, _⟩ := Prod.mk.injEq .. ▸ Option.some.inj h2
        omega
    | succ i =>
      simp only [lineOffsetsAux, List.get?] at h h2
      exact ih (cur + l.length + 1) i st en st2 en2 h h2

theorem lineOffsetsAux_sorted (ls : List Str) (cur : Nat) :
    ∀ i j sti eni stj enj, i < j →
      (lineOffsetsAux ls cur).get? i = some (sti, eni) →
      (lineOffsetsAux ls cur).get? j = some (stj, enj) →
      eni < stj := by
  induction ls generalizing cur with
  | nil => intro i j sti eni stj enj _ h; simp [lineOffsetsAux] at h
  | cons l rest ih =>
    intro i j sti eni stj enj hij h1 h2
    cases i with
    | zero =>
      simp only [lineOffsetsAux, List.get?] at h1
      obtain ⟨ha, hb⟩ := Prod.mk.injEq .. ▸ Option.some.inj h1
      match j, hij with
      | j + 1, _ =>
        simp only [lineOffsetsAux, List.get?] at h2
        obtain ⟨l2, _, _, hc⟩ := lineOffsetsAux_get rest (cur + l.length + 1) j stj enj h2
        omega
    | succ i =>
      match j, hij with
      | j + 1, _ =>
        simp only [lineOffsetsAux, List.get?] at h1 h2
        exact ih (cur + l.length + 1) i j sti eni stj enj (by omega) h1 h2

theorem lineOffsetsAux_coverage (ls : List Str) (cur : Nat) (c : Nat) :
    ls ≠ [] → cur ≤ c → c ≤ cur + (joinNL ls).length →
    ∃ j st en, (lineOffsetsAux ls cur).get? j = some (st, en) ∧
      st ≤ c ∧ c ≤ en := by
  induction ls generalizing cur with
  | nil => intro h; exact absurd rfl h
  | cons l rest ih =>
    intro _ hlo hhi
    by_cases hin : c ≤ cur + l.length
    · exact ⟨0, cur, cur + l.length, rfl, hlo, hin⟩
    · match hrest : rest with
      | [] =>
        exfalso
        unfold joinNL at hhi
        omega
      | r :: rs =>
        have hjoin : joinNL (l :: r :: rs) = l ++ '\n' :: joinNL (r :: rs) := rfl
        have hlen : (joinNL (l :: r :: rs)).length =
            l.length + 1 + (joinNL (r :: rs)).length := by
          rw [hjoin]
          simp
          omega
        obtain ⟨j, st, en, hg, h1, h2⟩ :=
          ih (cur + l.length + 1) (by simp) (by omega) (by omega)
        exact ⟨j + 1, st, en, by simpa [lineOffsetsAux] using hg, h1, h2⟩

theorem lineOffsetsAux_zero (l : Str) (rest : List Str) (cur : Nat) :
    (lineOffsetsAux (l :: rest) cur).get? 0 = some (cur, cur + l.length) := rfl

theorem joinNL_content (ls : List Str) (cur : Nat) :
    ∀ j st en, (lineOffsetsAux ls cur).get? j = some (st, en) →
      ∃ l, ls.get? j = some l ∧ en = st + l.length ∧
        ∀ o, o < l.length → (joinNL ls).get? (st - cur + o) = l.get? o := by
  induction ls generalizing cur with
  | nil => intro j st en h; simp [lineOffsetsAux] at h
  | cons l rest ih =>
    intro j st en h
    cases j with
    | zero =>
      simp only [lineOffsetsAux, List.get?] at h
      obtain ⟨ha, hb⟩ := Prod.mk.injEq .. ▸ Option.some.inj h
      refine ⟨l, rfl, by omega, ?_⟩
      intro o ho
      match rest with
      | [] =>
        have hidx : st - cur + o = o := by omega
        rw [hidx]
        rfl
      | r :: rs =>
        rw [show joinNL (l :: r :: rs) = l ++ '\n' :: joinNL (r :: rs) from rfl]
        have hidx : st - cur + o = o := by omega
        rw [hidx, List.get?_append ho]
    | succ j =>
      simp only [lineOffsetsAux, List.get?] at h
      obtain ⟨l2, hl2, hen, hofs⟩ := ih (cur + l.length + 1) j st en h
      obtain ⟨l2', hl2', hen', hst⟩ :=
        lineOffsetsAux_get rest (cur + l.length + 1) j st en h
      refine ⟨l2, hl2, hen, ?_⟩
      intro o ho
      match rest with
      | [] => simp [lineOffsetsAux] at h
      | r :: rs =>
        rw [show joinNL (l :: r :: rs) = l ++ '\n' :: joinNL (r :: rs) from rfl]
        have h1 : l.length ≤ st - cur + o := by omega
        rw [List.get?_append_right h1]
        have h2 : st - cur + o - l.length = (st - (cur + l.length + 1) + o) + 1 := by
          omega
        rw [h2]
        exact hofs o ho

theorem joinNL_sep (ls : List Str) (cur : Nat) :
    ∀ j st en, (lineOffsetsAux ls cur).get? j = some (st, en) →
      j + 1 < ls.length → (joinNL ls).get? (en - cur) = some '\n' := by
  induction ls generalizing cur with
  | nil => intro j st en h; simp [lineOffsetsAux] at h
  | cons l rest ih =>
    intro j st en h hj
    cases j with
    | zero =>
      simp only [lineOffsetsAux, List.get?] at h
      obtain ⟨ha, hb⟩ := Prod.mk.injEq .. ▸ Option.some.inj h
      match rest with
      | [] => simp at hj
      | r :: rs =>
        rw [show joinNL (l :: r :: rs) = l ++ '\n' :: joinNL (r :: rs) from rfl]
        have hidx : en - cur = l.length := by omega
        rw [hidx, List.get?_append_right (le_refl _)]
        simp
    | succ j =>
      simp only [lineOffsetsAux, List.get?] at h
      match rest with
      | [] => simp [lineOffsetsAux] at h
      | r :: rs =>
        have hsub := ih (cur + l.length + 1) j st en h (by simpa using hj)
        obtain ⟨l2, hl2, hen, hst⟩ :=
          lineOffsetsAux_get (r :: rs) (cur + l.length + 1) j st en h
        rw [show joinNL (l :: r :: rs) = l ++ '\n' :: joinNL (r :: rs) from rfl]
        have h1 : l.length ≤ en - cur := by omega
        rw [List.get?_append_right h1]
        have h2 : en - cur - l.length = (en - (cur + l.length + 1)) + 1 := by omega
        rw [h2]
        exact hsub

theorem lineOffsetsL_content (s : Str) (j st en : Nat)
    (h : (lineOffsetsL s).get? j = some (st, en)) :
    ∃ l, (splitNL s).get? j = some l ∧ en = st + l.length ∧
      ∀ o, o < l.length → s.get? (st + o) = l.get? o := by
  obtain ⟨l, h1, h2, h3⟩ := joinNL_content (splitNL s) 0 j st en h
  refine ⟨l, h1, h2, fun o ho => ?_⟩
  have h4 := h3 o ho
  rwa [joinNL_splitNL, Nat.sub_zero] at h4

theorem lineOffsetsL_no_nl (s : Str) {j st en p : Nat}
    (h : (lineOffsetsL s).get? j = some (st, en))
    (hp1 : st ≤ p) (hp2 : p < en) : s.get? p ≠ some '\n' := by
  obtain ⟨l, h1, h2, h3⟩ := lineOffsetsL_content s j st en h
  have ho : p - st < l.length := by omega
  have h4 := h3 (p - st) ho
  rw [show st + (p - st) = p by omega] at h4
  rw [h4]
  intro hc
  exact splitNL_no_nl s l (List.get?_mem h1) (List.get?_mem hc)

theorem lineOffsetsL_sep (s : Str) {j st en : Nat}
    (h : (lineOffsetsL s).get? j = some (st, en))
    (hj : j + 1 < (splitNL s).length) : s.get? en = some '\n' := by
  have h4 := joinNL_sep (splitNL s) 0 j st en h hj
  rwa [joinNL_splitNL, Nat.sub_zero] at h4

/-! `lastIndexOf` characterization. -/

theorem lastNLuntil_eq_neg (s : Str) (p : Nat)
    (h : ∀ j, j ≤ p → s.get? j ≠ some '\n') : lastNLuntil s p = -1 := by
  induction p with
  | zero =>
    unfold lastNLuntil
    rw [if_neg (h 0 (le_refl 0))]
  | succ p ih =>
    unfold lastNLuntil
    rw [if_neg (h (p + 1) (le_refl _))]
    exact ih (fun j hj => h j (by omega))

theorem lastNLuntil_eq (s : Str) (p m : Nat)
    (hm : s.get? m = some '\n') (hmp : m ≤ p)
    (h : ∀ j, m < j → j ≤ p → s.get? j ≠ some '\n') :
    lastNLuntil s p = (m : Int) := by
  induction p with
  | zero =>
    have hz : m = 0 := by omega
    subst hz
    unfold lastNLuntil
    rw [if_pos hm]
    simp
  | succ p ih =>
    unfold lastNLuntil
    by_cases he : s.get? (p + 1) = some '\n'
    · have hmp1 : m = p + 1 := by
        by_contra hne
        exact h (p + 1) (by omega) (le_refl _) he
      subst hmp1
      rw [if_pos he]
    · rw [if_neg he]
      have hmp2 : m ≤ p := by
        rcases Nat.lt_succ_iff_lt_or_eq.mp (Nat.lt_succ_of_le hmp) with h1 | h1
        · omega
        · exact absurd (h1 ▸ hm) he
      exact ih hmp2 (fun j hj1 hj2 => h j hj1 (by omega))

/-! Binary-search correctness. -/

theorem binSearchGo_correct (arr : List (Nat × Nat)) (c : Int)
    (hsort : ∀ i j sti eni stj enj, i < j →
      arr.get? i = some (sti, eni) → arr.get? j = some (stj, enj) → eni < stj)
    (hwf : ∀ i st en, arr.get? i = some (st, en) → st ≤ en) :
    ∀ fuel (low high : Int) (j st en : Nat),
      0 ≤ low → low ≤ (j : Int) → (j : Int) ≤ high →
      high ≤ (arr.length : Int) - 1 →
      arr.get? j = some (st, en) →
      (st : Int) ≤ c → c ≤ (en : Int) →
      (high - low).toNat < fuel →
      binSearchGo arr c low high fuel = (j : Int) := by
  intro fuel
  induction fuel with
  | zero =>
    intro low high j st en h0 h1 h2 h3 hj hc1 hc2 hf
    omega
  | succ fuel ih =>
    intro low high j st en h0 h1 h2 h3 hj hc1 hc2 hf
    rw [binSearchGo]
    rw [if_neg (by omega)]
    simp only
    have hmid1 : low ≤ (low + high) / 2 := by omega
    have hmid2 : (low + high) / 2 ≤ high := by omega
    have hmidlt : ((low + high) / 2).toNat < arr.length := by omega
    obtain ⟨pr, hpr⟩ : ∃ pr, arr.get? ((low + high) / 2).toNat = some pr := by
      rw [List.get?_eq_get hmidlt]
      exact ⟨_, rfl⟩
    obtain ⟨stm, enm⟩ := pr
    rw [hpr]
    simp only
    have hmidnat : (((low + high) / 2).toNat : Int) = (low + high) / 2 := by omega
    have hwfm := hwf _ _ _ hpr
    by_cases hlt : c < (stm : Int)
    · rw [if_pos hlt]
      have hjm : (j : Int) < (low + high) / 2 := by
        rcases Nat.lt_trichotomy j ((low + high) / 2).toNat with ht | ht | ht
        · omega
        · rw [← ht] at hpr
          rw [hpr] at hj
          obtain ⟨ha, hb⟩ := Prod.mk.injEq .. ▸ Option.some.inj hj
          omega
        · have := hsort _ _ _ _ _ _ ht hpr hj
          omega
      exact ih low ((low + high) / 2 - 1) j st en h0 h1 (by omega) (by omega)
        hj hc1 hc2 (by omega)
    · rw [if_neg hlt]
      by_cases hgt : c > (enm : Int)
      · rw [if_pos hgt]
        have hjm : (low + high) / 2 < (j : Int) := by
          rcases Nat.lt_trichotomy j ((low + high) / 2).toNat with ht | ht | ht
          · have := hsort _ _ _ _ _ _ ht hj hpr
            omega
          · rw [← ht] at hpr
            rw [hpr] at hj
            obtain ⟨ha, hb⟩ := Prod.mk.injEq .. ▸ Option.some.inj hj
            omega
          · omega
        exact ih ((low + high) / 2 + 1) high j st en (by omega) (by omega) h2 h3
          hj hc1 hc2 (by omega)
      · rw [if_neg hgt]
        rcases Nat.lt_trichotomy j ((low + high) / 2).toNat with ht | ht | ht
        · have := hsort _ _ _ _ _ _ ht hj hpr
          omega
        · omega
        · have := hsort _ _ _ _ _ _ ht hpr hj
          omega

theorem jsCurrentLine_eq (s : Str) (c : Int) (j : Nat) (st en : Nat)
    (hj : (lineOffsetsL s).get? j = some (st, en))
    (hc1 : (st : Int) ≤ c) (hc2 : c ≤ (en : Int)) :
    jsCurrentLine s c = (j : Int) := by
  unfold jsCurrentLine
  have hlen : j < (lineOffsetsL s).length := by
    rcases List.get?_eq_some.mp hj with ⟨h1, _⟩
    exact h1
  exact binSearchGo_correct (lineOffsetsL s) c
    (fun i j2 sti eni stj enj hij hi hj2 =>
      lineOffsetsAux_sorted (linesL s) 0 i j2 sti eni stj enj hij hi hj2)
    (fun i st2 en2 hi => by
      obtain ⟨l, _, he, _⟩ := lineOffsetsAux_get (linesL s) 0 i st2 en2 hi
      omega)
    ((lineOffsetsL s).length + 1) 0 ((lineOffsetsL s).length - 1) j st en
    (by omega) (by omega) (by omega) (by omega) hj hc1 hc2 (by omega)

theorem taste_str_match {s : Str} {c : Int} {lit v : Str} {tc : Int}
    (h : taste s c (some (.str lit)) = some (v, tc)) :
    v = lit ∧ 0 ≤ c ∧ strTasteMatch lit (s.drop c.toNat) = true := by
  unfold taste at h
  split at h
  · simp at h
  · simp only at h
    split at h
    · rename_i hcond
      obtain ⟨h1, h2⟩ := Bool.and_eq_true .. ▸ hcond
      simp only [Option.some.injEq, Prod.mk.injEq] at h
      exact ⟨h.1.symm, by simpa using h1, h2⟩
    · simp at h

theorem taste_re_sticky {s : Str} {c : Int} {r : JSRegex} {v : Str} {tc : Int}
    (hsticky : r.sticky = true)
    (h : taste s c (some (.re r)) = some (v, tc)) :
    r.matchAt s c.toNat = some v := by
  unfold taste at h
  split at h
  · simp at h
  · simp only at h
    unfold JSRegex.exec at h
    simp only [hsticky, if_true] at h
    cases hma : r.matchAt s c.toNat with
    | none => rw [hma] at h; simp at h
    | some v1 =>
      rw [hma] at h
      simp only [Option.some.injEq, Prod.mk.injEq] at h
      rw [h.1]

/-- The column computed by `eat` (via `lastIndexOf`, with the clamp at
`0`) equals `start − lineStart` of the line containing `start`. -/
theorem col_eq (s : Str) (c : Int) (j st en : Nat)
    (hc0 : 0 ≤ c)
    (hj : (lineOffsetsL s).get? j = some (st, en))
    (hc1 : (st : Int) ≤ c) (hc2 : c ≤ (en : Int)) :
    (if c - jsLastIndexOfNL s (c - 1) - 1 < 0 then 0
     else c - jsLastIndexOfNL s (c - 1) - 1) = c - st := by
  have hlines : (lineOffsetsL s).length = (splitNL s).length :=
    lineOffsetsAux_length (linesL s) 0
  by_cases hc : c = 0
  · subst hc
    have hst : st = 0 := by omega
    subst hst
    have hz : jsLastIndexOfNL s (0 - 1) = lastNLuntil s 0 := by
      unfold jsLastIndexOfNL
      congr 1
    rw [hz]
    unfold lastNLuntil
    by_cases h0 : s.get? 0 = some '\n'
    · rw [if_pos h0]
      norm_num
    · rw [if_neg h0]
      norm_num
  · have hc1' : 1 ≤ c := by omega
    have htn : (c - 1).toNat = c.toNat - 1 := by omega
    cases j with
    | zero =>
      have hst : st = 0 := by
        obtain ⟨l, rest, hsplit⟩ : ∃ l rest, splitNL s = l :: rest := by
          match hs : splitNL s with
          | [] => exact absurd hs (splitNL_ne_nil s)
          | l :: rest => exact ⟨l, rest, rfl⟩
        have h0 := lineOffsetsAux_zero l rest 0
        unfold lineOffsetsL linesL at hj
        rw [hsplit] at hj
        obtain ⟨ha, _⟩ := Prod.mk.injEq .. ▸ Option.some.inj (h0 ▸ hj)
        omega
      subst hst
      have hnl : jsLastIndexOfNL s (c - 1) = -1 := by
        unfold jsLastIndexOfNL
        rw [htn]
        apply lastNLuntil_eq_neg
        intro k hk
        exact lineOffsetsL_no_nl s hj (by omega) (by omega)
      rw [hnl]
      rw [if_neg (by omega)]
      omega
    | succ j2 =>
      have hlen : j2 + 1 < (lineOffsetsL s).length :=
        (List.get?_eq_some.mp hj).1
      have hlt2 : j2 < (lineOffsetsL s).length := by omega
      obtain ⟨pr2, hpr2⟩ : ∃ pr2, (lineOffsetsL s).get? j2 = some pr2 := by
        rw [List.get?_eq_get hlt2]
        exact ⟨_, rfl⟩
      obtain ⟨st2, en2⟩ := pr2
      have hadj : st = en2 + 1 :=
        lineOffsetsAux_adjacent (linesL s) 0 j2 st2 en2 st en hpr2 hj
      have hsep : s.get? en2 = some '\n' :=
        lineOffsetsL_sep s hpr2 (by omega)
      have hnl : jsLastIndexOfNL s (c - 1) = (en2 : Int) := by
        unfold jsLastIndexOfNL
        rw [htn]
        apply lastNLuntil_eq s (c.toNat - 1) en2 hsep (by omega)
        intro k hk1 hk2
        exact lineOffsetsL_no_nl s hj (by omega) (by omega)
      rw [hnl]
      rw [if_neg (by omega)]
      omega

/-- **C3** (amended).  For a Token produced by `Lexer.eat` from a
*string* pattern, or from a *sticky* regex whose engine reports faithful
matches (`ValidRe`), at a cursor inside the input: the token's value is
exactly `input[start:end]`, its `line` is the index of the line whose
`[start, end]` offset interval contains `t.start`, and its `col` is
`t.start − lineStart(t.line)`.  For a non-sticky `RegExp` — also accepted
by the public `eat` — the claim fails: see `c3_counterexample`. -/
theorem c3_token_positions :
    ∀ s (c : Int) (p : Pat) (t : Token) (c2 : Int),
      0 ≤ c → c ≤ (s.length : Int) →
      ((∃ lit, p = .str lit) ∨ (∃ r, p = .re r ∧ r.sticky = true ∧ ValidRe r s)) →
      eat s c (some p) = some (t, c2) →
      sliceI s t.start t.tokEnd = t.value ∧
      (∃ j : Nat, t.line = (j : Int) ∧
        ∃ st en, (lineOffsetsL s).get? j = some (st, en) ∧
          (st : Int) ≤ t.start ∧ t.start ≤ (en : Int)) ∧
      (∀ (j st en : Nat), (lineOffsetsL s).get? j = some (st, en) →
        (st : Int) ≤ t.start → t.start ≤ (en : Int) →
        t.col = t.start - (st : Int)) := by
  intro s c p t c2 hc0 hcl hp h
  obtain ⟨v, ht, hc2e, htok⟩ := eat_elim h
  have hslice : sliceN s c.toNat (c.toNat + v.length) = v := by
    rcases hp with ⟨lit, rfl⟩ | ⟨r, rfl, hsticky, hvalid⟩
    · obtain ⟨hv, _, hm⟩ := taste_str_match ht
      subst hv
      exact strTasteMatch_slice.mp hm
    · exact (hvalid c.toNat v (taste_re_sticky hsticky ht)).2
  obtain ⟨j, st, en, hget, hst, hen⟩ : ∃ j st en,
      (lineOffsetsL s).get? j = some (st, en) ∧ st ≤ c.toNat ∧ c.toNat ≤ en := by
    have hne := splitNL_ne_nil s
    have hlen : c.toNat ≤ 0 + (joinNL (splitNL s)).length := by
      rw [joinNL_splitNL]
      omega
    exact lineOffsetsAux_coverage (splitNL s) 0 c.toNat hne (by omega) hlen
  have hline : jsCurrentLine s c = (j : Int) :=
    jsCurrentLine_eq s c j st en hget (by omega) (by omega)
  subst htok
  refine ⟨?_, ⟨j, ?_, st, en, hget, ?_, ?_⟩, ?_⟩
  · show sliceN s c.toNat (c + (v.length : Int)).toNat = v
    rw [show (c + (v.length : Int)).toNat = c.toNat + v.length by omega]
    exact hslice
  · exact hline
  · show (st : Int) ≤ c
    omega
  · show c ≤ (en : Int)
    omega
  · intro j3 st3 en3 hj3 hst3 hen3
    exact col_eq s c j3 st3 en3 hc0 hj3 hst3 hen3

/-- Witness for `c3_token_positions`: eating the literal `"cd"` at
cursor `4` of `"ab\n  cd"` — value `"cd"`, line `1`, column `1`. -/
theorem c3_token_positions_witness :
    sliceI (S "ab\n  cd") 5 7 = S "cd" ∧
    (∃ j : Nat, (1 : Int) = (j : Int) ∧
      ∃ st en, (lineOffsetsL (S "ab\n  cd")).get? j = some (st, en) ∧
        (st : Int) ≤ 5 ∧ (5 : Int) ≤ (en : Int)) ∧
    (∀ (j st en : Nat),
      (lineOffsetsL (S "ab\n  cd")).get? j = some (st, en) →
      (st : Int) ≤ 5 → (5 : Int) ≤ (en : Int) → (2 : Int) = 5 - (st : Int)) := by
  have h := c3_token_positions (S "ab\n  cd") 5 (.str (S "cd"))
    { value := S "cd", start := 5, tokEnd := 7, line := 1, col := 2,
      indent := some 2 } 7
    (by decide) (by decide) (Or.inl ⟨S "cd", rfl⟩) rfl
  exact h

/-- **C3** counterexample: the public `eat` also accepts a non-sticky
`RegExp` (here `/ab/` with neither `y` nor `g`), for which `exec` scans
from position `0` regardless of `lastIndex`.  At cursor `2` of `"abxx"`
the match is found at `0`, but the token is positioned at the cursor:
`value = "ab"`, `start = 2`, `end = 4`, while `input[2:4] = "xx"`. -/
theorem c3_counterexample :
    ((eat (S "abxx") 2 (some (.re abPlainRe))).map
      (fun r => (r.1.value, r.1.start, r.1.tokEnd, r.2))) =
      some (S "ab", 2, 4, 4) ∧
    sliceI (S "abxx") 2 4 = S "xx" ∧ (S "xx" : Str) ≠ S "ab" :=
  ⟨rfl, rfl, by decide⟩

end PandaParse
